import Mathlib

/-!
Verification of the arith dialect operation definitions
(src/mlir/src/dialect/arith/ir/operations.rs).

The source file is a declarative operation-definition table: each `def
Arith_...Op` names an operation, its traits, its declared hooks
(`hasFolder`, `hasCanonicalizer`, `hasVerifier`), and its assembly
format.  We embed that declaration table directly, and model the
generated hook bodies (folders, range transfer functions,
speculatability queries, printer/parser) from the specification where
their code is not part of the source tree.
-/

namespace ArithDialect

/-! ## Bit-pattern arithmetic

An N-bit signless integer constant is held as its bit pattern, a natural
number `v < 2^N`.  `toSigned` reads the pattern in two's complement;
`toUnsigned` writes an integer back to a width-N pattern. -/

/-- Two's-complement (signed) reading of the width-`N` bit pattern `v`. -/
def toSigned (N v : ℕ) : ℤ :=
  if v < 2 ^ (N - 1) then (v : ℤ) else (v : ℤ) - 2 ^ N

/-- The width-`N` bit pattern of the integer `s` (truncation mod `2^N`). -/
def toUnsigned (N : ℕ) (s : ℤ) : ℕ :=
  (s % (2 : ℤ) ^ N).toNat

theorem toSigned_emod (N v : ℕ) :
    toSigned N v % (2 : ℤ) ^ N = (v : ℤ) % (2 : ℤ) ^ N := by
  unfold toSigned
  split
  · rfl
  · rw [Int.sub_emod, Int.emod_self, sub_zero, Int.emod_emod_of_dvd _ dvd_rfl]

theorem toSigned_modEq (N v : ℕ) : toSigned N v ≡ (v : ℤ) [ZMOD (2 : ℤ) ^ N] := by
  unfold Int.ModEq
  exact toSigned_emod N v

theorem toUnsigned_natCast (N v : ℕ) :
    toUnsigned N ((v : ℤ)) = v % 2 ^ N := by
  unfold toUnsigned
  rw [show ((2 : ℤ) ^ N) = ((2 ^ N : ℕ) : ℤ) by push_cast; ring]
  rw [← Int.natCast_mod]
  exact Int.toNat_natCast _

theorem toUnsigned_congr (N : ℕ) {s t : ℤ} (h : s ≡ t [ZMOD (2 : ℤ) ^ N]) :
    toUnsigned N s = toUnsigned N t := by
  unfold toUnsigned
  rw [h]

/-! ## The operation registry

One constructor per `def Arith_...Op` (plus `SelectOp`) in the source
file, with the hook flags exactly as declared there. -/

inductive ArithOp where
  | constant | addi | addui_extended | subi | muli | mulsi_extended | mului_extended
  | divui | divsi | ceildivui | ceildivsi | floordivsi | remui | remsi
  | andi | ori | xori | shli | shrui | shrsi
  | negf | addf | subf | maxf | maxsi | maxui | minf | minsi | minui
  | mulf | divf | remf
  | extui | extsi | extf | trunci | truncf
  | uitofp | sitofp | fptoui | fptosi | index_cast | index_castui | bitcast
  | cmpi | cmpf | select
  deriving DecidableEq, Repr

/-- `let hasFolder = 1;` as declared per operation in the source. -/
def hasFolder : ArithOp → Bool
  | .extf => false
  | _ => true

/-- `let hasCanonicalizer = 1;` as declared per operation in the source. -/
def hasCanonicalizer : ArithOp → Bool
  | .addi | .addui_extended | .subi | .mulsi_extended | .mului_extended
  | .andi | .ori | .xori | .extsi | .trunci | .mulf | .divf
  | .index_cast | .index_castui | .bitcast | .cmpi | .cmpf | .select => true
  | _ => false

/-- `let hasVerifier = 1;` as declared per operation in the source. -/
def hasVerifier : ArithOp → Bool
  | .constant | .extui | .extsi | .extf | .trunci | .truncf | .select => true
  | _ => false

/-! ## Folders (claims C1, C2)

Modelled from the spec: the folder bodies generated for `hasFolder = 1`
are not under src/; only the declarations are.  The addi folder computes
the constant sum in the two's-complement (signed) reading of the operand
patterns and truncates the result back to the width, per
"const+const computed as two's-complement truncation to width". -/

/-- Modelled from the spec: the addi folder on two width-`N` constant
operand patterns (`fold(addi(c1,c2))`), computed by two's-complement
addition truncated to the width. -/
def addi_fold (N c1 c2 : ℕ) : ℕ :=
  toUnsigned N (toSigned N c1 + toSigned N c2)

/-- Outcome of a folder call: a constant attribute, the existing lhs SSA
value, or no change (per §4.3 of the spec). -/
inductive FoldOut where
  | const (c : ℕ)
  | lhsValue
  | nofold
  deriving DecidableEq, Repr

/-- Modelled from the spec: the divui folder body is not under src/.
`rhs == 0` → no fold (preserve UB); `rhs == 1` → the lhs value; otherwise
the constants fold with unsigned round-toward-zero division of the bit
patterns. -/
def divui_fold (N lhs rhs : ℕ) : FoldOut :=
  if rhs = 0 then .nofold
  else if rhs = 1 then .lhsValue
  else .const (lhs / rhs)

/-- Modelled from the spec: the divsi folder body is not under src/.
`rhs == 0` → no fold; `rhs == 1` → the lhs value; signed overflow
(minimum value divided by `-1`) → no fold; otherwise the constants fold
with signed round-toward-zero (truncated) division of the two's
complement readings, truncated back to the width. -/
def divsi_fold (N lhs rhs : ℕ) : FoldOut :=
  if rhs = 0 then .nofold
  else if rhs = 1 then .lhsValue
  else if toSigned N lhs = -(2 : ℤ) ^ (N - 1) ∧ toSigned N rhs = -1 then .nofold
  else .const (toUnsigned N (Int.tdiv (toSigned N lhs) (toSigned N rhs)))

end ArithDialect

namespace ArithDialect

/-- Claim C1: for every bit-width `N` and width-`N` constant patterns
`c1`, `c2`, the addi folder returns the bit pattern `(c1 + c2) mod 2^N`:
two's-complement truncation to the width, independent of sign
interpretation. -/
theorem addi_fold_twos_complement (N c1 c2 : ℕ) :
    addi_fold N c1 c2 = (c1 + c2) % 2 ^ N := by
  unfold addi_fold
  have hsum : toSigned N c1 + toSigned N c2 ≡ ((c1 + c2 : ℕ) : ℤ) [ZMOD (2 : ℤ) ^ N] := by
    have h := (toSigned_modEq N c1).add (toSigned_modEq N c2)
    simpa using h
  rw [toUnsigned_congr N hsum, toUnsigned_natCast]

/-- Claim C2: the division folders obey the spec's case analysis: rhs 0
gives no fold for both divui and divsi, rhs 1 returns the lhs value for
both, the signed minimum divided by `-1` gives no fold for divsi, and
any other nonzero rhs folds to the round-toward-zero quotient (unsigned
natural division for divui, truncated signed division for divsi). -/
theorem div_fold_rules (N l r : ℕ) (hN : 0 < N) :
    divui_fold N l 0 = .nofold ∧
    divsi_fold N l 0 = .nofold ∧
    divui_fold N l 1 = .lhsValue ∧
    divsi_fold N l 1 = .lhsValue ∧
    (toSigned N l = -(2 : ℤ) ^ (N - 1) → toSigned N r = -1 → r ≠ 1 →
      divsi_fold N l r = .nofold) ∧
    (r ≠ 0 → r ≠ 1 → divui_fold N l r = .const (l / r)) ∧
    (r ≠ 0 → r ≠ 1 → ¬(toSigned N l = -(2 : ℤ) ^ (N - 1) ∧ toSigned N r = -1) →
      divsi_fold N l r = .const (toUnsigned N (Int.tdiv (toSigned N l) (toSigned N r)))) := by
  refine ⟨rfl, rfl, rfl, rfl, ?_, ?_, ?_⟩
  · intro hl hr hr1
    have hr0 : r ≠ 0 := by
      intro h
      subst h
      unfold toSigned at hr
      simp at hr
    unfold divsi_fold
    rw [if_neg hr0, if_neg hr1, if_pos ⟨hl, hr⟩]
  · intro hr0 hr1
    unfold divui_fold
    rw [if_neg hr0, if_neg hr1]
  · intro hr0 hr1 hov
    unfold divsi_fold
    rw [if_neg hr0, if_neg hr1, if_neg hov]

/-- Witness for C2 at `N = 8`: the signed-overflow pattern
(`-128 / -1` at width 8, patterns 128 and 255) produces no fold. -/
theorem div_fold_rules_witness :
    divsi_fold 8 128 255 = .nofold :=
  (div_fold_rules 8 128 255 (by decide)).2.2.2.2.1 (by decide) (by decide) (by decide)

/-- Claim C5 counterexample: the source declares no canonicalizer for
negf (`Arith_NegFOp` sets only `hasFolder = 1`), so negf does not
register a canonicalization pattern for the double-negation rewrite. -/
theorem negf_no_canonicalizer :
    ¬ (hasCanonicalizer ArithOp.negf = true) := by
  decide

/-- Claim C5 amended: negf declares a folder and no canonicalizer, so
the double-negation identity is not a registered canonicalization
pattern of negf. -/
theorem negf_hooks :
    hasFolder ArithOp.negf = true ∧ hasCanonicalizer ArithOp.negf = false := by
  decide

/-- Width-`N` semantics of muli on bit patterns: product truncated to
the width (per "const fold with truncation"). -/
def muli_sem (N x y : ℕ) : ℕ :=
  (x * y) % 2 ^ N

/-- Width-`N` semantics of shli on bit patterns: shift left filling with
zeros, truncated to the width; a shift amount of at least the width is
poison (`none`), per the spec's shift rule. -/
def shli_sem (N x s : ℕ) : Option ℕ :=
  if s < N then some ((x * 2 ^ s) % 2 ^ N) else none

/-- Claim C6 counterexample: the source declares no canonicalizer for
muli (`Arith_MulIOp` sets only `hasFolder = 1`), so no muli
canonicalization pattern (in particular no power-of-two strength
reduction) is registered. -/
theorem muli_no_canonicalizer :
    ¬ (hasCanonicalizer ArithOp.muli = true) := by
  decide

/-- Claim C6 amended: muli declares no canonicalizer, so the rewrite
`muli(x, 2^k) → shli(x, k)` is not a registered pattern; the rewrite is
nonetheless value-preserving whenever it is lossless (`k < N`, so that
`2^k` is a width-`N` constant and the shift is in range). -/
theorem muli_pow2_shift (N x k : ℕ) (hk : k < N) :
    hasCanonicalizer ArithOp.muli = false ∧
    shli_sem N x k = some (muli_sem N x (2 ^ k)) := by
  refine ⟨by decide, ?_⟩
  unfold shli_sem muli_sem
  rw [if_pos hk]

/-- Witness for C6 amended at `N = 8`, `x = 5`, `k = 3`:
`muli(5, 8) = shli(5, 3) = 40` at width 8. -/
theorem muli_pow2_shift_witness :
    hasCanonicalizer ArithOp.muli = false ∧
    shli_sem 8 5 3 = some (muli_sem 8 5 (2 ^ 3)) :=
  muli_pow2_shift 8 5 3 (by decide)

/-- Claim C7 counterexample: the source declares no folder for extf
(`Arith_ExtFOp` sets only `hasVerifier = 1`), so extf does not
constant-fold. -/
theorem extf_no_folder :
    ¬ (hasFolder ArithOp.extf = true) := by
  decide

end ArithDialect

namespace ArithDialect

/-! ## Speculatability of the division operations (claim C4)

The source declares `Speculation::Speculatability getSpeculatability();`
for divui, divsi, ceildivui and ceildivsi (trait
`ConditionallySpeculatable`); the bodies are not under src/. -/

/-- The speculatability answers of §6 of the spec. -/
inductive Speculatability where
  | speculatable
  | notSpeculatable
  | recursive
  deriving DecidableEq, Repr

/-- The four conditionally speculatable division operations. -/
inductive DivOpKind where
  | divui | divsi | ceildivui | ceildivsi
  deriving DecidableEq, Repr

/-- Whether the division kind interprets its operands as signed. -/
def DivOpKind.signed : DivOpKind → Bool
  | .divsi | .ceildivsi => true
  | _ => false

/-- Modelled from the spec: `getSpeculatability()` for the division ops;
the bodies are not under src/.  The rhs is statically known exactly when
it is produced by a constant (`Option ℕ` carries its width-`N` pattern);
the result is Speculatable when that constant is non-zero and, for the
signed variants, when signed overflow (minimum value divided by `-1`)
is impossible, i.e. the divisor pattern does not read as `-1`. -/
def getSpeculatability (k : DivOpKind) (N : ℕ) (rhsConst : Option ℕ) : Speculatability :=
  match rhsConst with
  | none => .notSpeculatable
  | some c =>
    if c = 0 then .notSpeculatable
    else if k.signed = true ∧ toSigned N c = -1 then .notSpeculatable
    else .speculatable

/-- Claim C4: a division op is Speculatable exactly when its rhs is
statically known (a constant) and non-zero and, for the signed variants,
signed overflow is impossible; in every other case the answer is
NotSpeculatable (never Recursive). -/
theorem div_speculatability (k : DivOpKind) (N : ℕ) (rc : Option ℕ) :
    (getSpeculatability k N rc = .speculatable ↔
      ∃ c, rc = some c ∧ c ≠ 0 ∧ (k.signed = true → toSigned N c ≠ -1)) ∧
    (getSpeculatability k N rc ≠ .speculatable →
      getSpeculatability k N rc = .notSpeculatable) := by
  constructor
  · constructor
    · intro h
      cases rc with
      | none => simp [getSpeculatability] at h
      | some c =>
        by_cases hc : c = 0
        · subst hc
          simp [getSpeculatability] at h
        · by_cases hov : k.signed = true ∧ toSigned N c = -1
          · simp [getSpeculatability, hc, hov] at h
          · exact ⟨c, rfl, hc, fun hs hneg => hov ⟨hs, hneg⟩⟩
    · rintro ⟨c, rfl, hc, hs⟩
      have hov : ¬(k.signed = true ∧ toSigned N c = -1) := fun hpair => hs hpair.1 hpair.2
      simp [getSpeculatability, hc, hov]
  · intro h
    cases rc with
    | none => rfl
    | some c =>
      simp only [getSpeculatability] at h ⊢
      split_ifs at h ⊢ with h1 h2
      · rfl
      · rfl
      · exact absurd rfl h

/-- Witness for C4: at width 8 a constant divisor with pattern 3 makes
divsi speculatable. -/
theorem div_speculatability_witness :
    getSpeculatability DivOpKind.divsi 8 (some 3) = Speculatability.speculatable :=
  (div_speculatability DivOpKind.divsi 8 (some 3)).1.mpr
    ⟨3, rfl, by decide, fun _ => by decide⟩

/-! ## Extended multiplication (claim C10)

Modelled from the spec and the operation descriptions in the source:
`mulsi_extended` performs (2N)-bit multiplication on sign-extended
operands and `mului_extended` on zero-extended operands, each returning
the low and high N-bit halves of the product. -/

/-- Modelled from the spec: mulsi_extended on width-`N` patterns; the
(2N)-bit sign-extended product, split into low and high halves. -/
def mulsi_extended_sem (N x y : ℕ) : ℕ × ℕ :=
  let bits := toUnsigned (2 * N) (toSigned N x * toSigned N y)
  (bits % 2 ^ N, bits / 2 ^ N)

/-- Modelled from the spec: mului_extended on width-`N` patterns; the
(2N)-bit zero-extended product, split into low and high halves. -/
def mului_extended_sem (N x y : ℕ) : ℕ × ℕ :=
  let bits := (x * y) % 2 ^ (2 * N)
  (bits % 2 ^ N, bits / 2 ^ N)

/-- Claim C10: for operands of the same width the low results of
mulsi_extended and mului_extended both equal the muli result on the same
operands, the (2N)-bit product truncated to the low N bits. -/
theorem mul_extended_low_eq_muli (N x y : ℕ) :
    (mulsi_extended_sem N x y).1 = muli_sem N x y ∧
    (mului_extended_sem N x y).1 = muli_sem N x y := by
  constructor
  · show toUnsigned (2 * N) (toSigned N x * toSigned N y) % 2 ^ N = (x * y) % 2 ^ N
    have hcast : ((toUnsigned (2 * N) (toSigned N x * toSigned N y) : ℕ) : ℤ) =
        (toSigned N x * toSigned N y) % (2 : ℤ) ^ (2 * N) := by
      unfold toUnsigned
      exact Int.toNat_of_nonneg (Int.emod_nonneg _ (by positivity))
    have h1 : toUnsigned N ((toUnsigned (2 * N) (toSigned N x * toSigned N y) : ℕ) : ℤ) =
        toUnsigned N (toSigned N x * toSigned N y) := by
      apply toUnsigned_congr
      unfold Int.ModEq
      rw [hcast]
      exact Int.emod_emod_of_dvd _ (pow_dvd_pow 2 (by omega))
    rw [toUnsigned_natCast] at h1
    rw [h1]
    have hprod : toSigned N x * toSigned N y ≡ ((x * y : ℕ) : ℤ) [ZMOD (2 : ℤ) ^ N] := by
      have h := (toSigned_modEq N x).mul (toSigned_modEq N y)
      simpa using h
    rw [toUnsigned_congr N hprod, toUnsigned_natCast]
  · show ((x * y) % 2 ^ (2 * N)) % 2 ^ N = (x * y) % 2 ^ N
    exact Nat.mod_mod_of_dvd _ (pow_dvd_pow 2 (by omega))

/-! ## Types and the compare verifier (claim C8)

The relevant subset of the type model (§3 of the spec): scalar signless
integers, Index, floats, and vectors/tensors of those, tensors allowing
dynamic dimensions. -/

/-- Floating point semantics of the spec's `Float(semantics)`. -/
inductive FloatSem where
  | bf16 | f16 | f32 | f64 | f80 | f128
  deriving DecidableEq, Repr

/-- Scalar element types. -/
inductive ScalarType where
  | int (width : ℕ)
  | index
  | float (sem : FloatSem)
  deriving DecidableEq, Repr

/-- Types: scalars, vectors of scalars (static shape), tensors of
scalars (shape may contain dynamic dimensions, `none`). -/
inductive MType where
  | scalar (t : ScalarType)
  | vector (dims : List ℕ) (t : ScalarType)
  | tensor (dims : List (Option ℕ)) (t : ScalarType)
  deriving DecidableEq, Repr

/-- The element type of a type (the scalar itself for scalars). -/
def elemType : MType → ScalarType
  | .scalar t => t
  | .vector _ t => t
  | .tensor _ t => t

/-- The shape of a type, with scalars as shape `()`. -/
inductive ShapeK where
  | scalarShape
  | vectorShape (dims : List ℕ)
  | tensorShape (dims : List (Option ℕ))
  deriving DecidableEq, Repr

/-- The shape of a type. -/
def shapeOf : MType → ShapeK
  | .scalar _ => .scalarShape
  | .vector d _ => .vectorShape d
  | .tensor d _ => .tensorShape d

/-- Modelled from the spec: `::getI1SameShape` (its body is not under
src/; the source constraint describes it as "result type has i1 element
type and same shape as operands"): i1 for a scalar, and a vector/tensor
of i1 of the same shape otherwise. -/
def getI1SameShape : MType → MType
  | .scalar _ => .scalar (.int 1)
  | .vector d _ => .vector d (.int 1)
  | .tensor d _ => .tensor d (.int 1)

/-- The type checks of `Arith_CompareOp` as declared in the source:
`SameTypeOperands` plus `TypesMatchWith` forcing the result type to be
`getI1SameShape` of the lhs type. -/
def compare_verify (lhs rhs result : MType) : Bool :=
  decide (lhs = rhs) && decide (result = getI1SameShape lhs)

/-- Claim C8: every comparison accepted by the verifier has a result of
i1 element type with the same shape as the operands, computed by
`getI1SameShape` of the operand type; scalar operands yield a scalar i1
result. -/
theorem compare_result_type (lhs rhs result : MType)
    (h : compare_verify lhs rhs result = true) :
    elemType result = ScalarType.int 1 ∧
    shapeOf result = shapeOf lhs ∧
    result = getI1SameShape lhs ∧
    (∀ s, lhs = MType.scalar s → result = MType.scalar (ScalarType.int 1)) := by
  unfold compare_verify at h
  rw [Bool.and_eq_true, decide_eq_true_iff, decide_eq_true_iff] at h
  obtain ⟨-, hres⟩ := h
  subst hres
  refine ⟨?_, ?_, rfl, ?_⟩
  · cases lhs <;> rfl
  · cases lhs <;> rfl
  · intro s hs
    subst hs
    rfl

/-- Witness for C8: a vector compare at `vector<4xi32>` verifies with
result type `vector<4xi1>`, which has i1 element type and shape `[4]`. -/
theorem compare_result_type_witness :
    elemType (MType.vector [4] (ScalarType.int 1)) = ScalarType.int 1 ∧
    shapeOf (MType.vector [4] (ScalarType.int 1)) =
      shapeOf (MType.vector [4] (ScalarType.int 32)) ∧
    MType.vector [4] (ScalarType.int 1) =
      getI1SameShape (MType.vector [4] (ScalarType.int 32)) ∧
    (∀ s, MType.vector [4] (ScalarType.int 32) = MType.scalar s →
      MType.vector [4] (ScalarType.int 1) = MType.scalar (ScalarType.int 1)) :=
  compare_result_type (MType.vector [4] (ScalarType.int 32))
    (MType.vector [4] (ScalarType.int 32)) (MType.vector [4] (ScalarType.int 1))
    (by decide)

/-! ## Assembly surface round-trip (claim C9)

Modelled from the spec: the printer/parser generated from the
`assemblyFormat` strings (and, for select, the custom form shown in the
spec's textual examples) is not under src/.  We embed the surface of
every operation family of the dialect exactly as the format strings are
written in the source: constants print as `attr-dict $value`, binary
ops as `$lhs ',' $rhs attr-dict ':' type($result)`, float ops insert
the optional `fastmath` group when the flag is not the default, casts
print as `$in attr-dict ':' type($in) 'to' type($out)`, compares as
`$predicate ',' $lhs ',' $rhs attr-dict ':' type($lhs)`, the extended
ops and select in their explicit forms — each after the result names
and the mnemonic.  Types and the attribute dictionary are tokens
delegated to the host (type and attribute syntax is outside the core
per §1 of the spec). -/

/-- A typed attribute (the payload bit pattern and its type), as
carried by `constant`'s `$value`. -/
structure TypedAttr where
  payload : ℕ
  ty : MType
  deriving DecidableEq, Repr

/-- Tokens of the textual surface. -/
inductive Token where
  | ssaId (name : String)
  | assign
  | opName (mnemonic : String)
  | colon
  | kwTo
  | comma
  | typeLit (t : MType)
  | attrDict (d : List (String × ℕ))
  | predKw (keyword : String)
  | kwFastmath
  | fmLit (flags : ℕ)
  | valueAttr (a : TypedAttr)
  deriving DecidableEq, Repr

/-- The cast operations of the source sharing the `Arith_CastOp`
assembly format. -/
inductive CastKind where
  | extui | extsi | extf | trunci | truncf
  | uitofp | sitofp | fptoui | fptosi | index_cast | index_castui | bitcast
  deriving DecidableEq, Repr

/-- The mnemonic of a cast operation. -/
def castMnemonic : CastKind → String
  | .extui => "arith.extui"
  | .extsi => "arith.extsi"
  | .extf => "arith.extf"
  | .trunci => "arith.trunci"
  | .truncf => "arith.truncf"
  | .uitofp => "arith.uitofp"
  | .sitofp => "arith.sitofp"
  | .fptoui => "arith.fptoui"
  | .fptosi => "arith.fptosi"
  | .index_cast => "arith.index_cast"
  | .index_castui => "arith.index_castui"
  | .bitcast => "arith.bitcast"

/-- Recover a cast kind from its mnemonic. -/
def castKindOfMnemonic : String → Option CastKind
  | "arith.extui" => some .extui
  | "arith.extsi" => some .extsi
  | "arith.extf" => some .extf
  | "arith.trunci" => some .trunci
  | "arith.truncf" => some .truncf
  | "arith.uitofp" => some .uitofp
  | "arith.sitofp" => some .sitofp
  | "arith.fptoui" => some .fptoui
  | "arith.fptosi" => some .fptosi
  | "arith.index_cast" => some .index_cast
  | "arith.index_castui" => some .index_castui
  | "arith.bitcast" => some .bitcast
  | _ => none

/-- A cast operation as structured IR: result name, kind, operand,
attribute dictionary, source and destination types. -/
structure CastIR where
  result : String
  kind : CastKind
  operand : String
  attrs : List (String × ℕ)
  srcType : MType
  dstType : MType
  deriving DecidableEq, Repr

/-- The ten cmpi predicates (coded 0..9 in the source). -/
inductive CmpIPredicate where
  | eq | ne | slt | sle | sgt | sge | ult | ule | ugt | uge
  deriving DecidableEq, Repr

/-- The keyword of a cmpi predicate. -/
def predKeyword : CmpIPredicate → String
  | .eq => "eq"
  | .ne => "ne"
  | .slt => "slt"
  | .sle => "sle"
  | .sgt => "sgt"
  | .sge => "sge"
  | .ult => "ult"
  | .ule => "ule"
  | .ugt => "ugt"
  | .uge => "uge"

/-- Map a predicate keyword back to the enum (case-sensitively, per the
spec). -/
def predOfKeyword : String → Option CmpIPredicate
  | "eq" => some .eq
  | "ne" => some .ne
  | "slt" => some .slt
  | "sle" => some .sle
  | "sgt" => some .sgt
  | "sge" => some .sge
  | "ult" => some .ult
  | "ule" => some .ule
  | "ugt" => some .ugt
  | "uge" => some .uge
  | _ => none

/-- A cmpi operation as structured IR: result name, predicate, operand
names, attribute dictionary, and the lhs type (the result type is
derived as `getI1SameShape` of it and is not part of the surface). -/
structure CmpIIR where
  result : String
  pred : CmpIPredicate
  lhs : String
  rhs : String
  attrs : List (String × ℕ)
  lhsType : MType
  deriving DecidableEq, Repr

/-- The sixteen cmpf predicates of the source's IEEE
ordered/unordered set. -/
inductive CmpFPredicate where
  | alwaysFalse | oeq | ogt | oge | olt | ole | one | ord
  | ueq | ugt | uge | ult | ule | une | uno | alwaysTrue
  deriving DecidableEq, Repr

/-- The keyword of a cmpf predicate. -/
def cmpfPredKeyword : CmpFPredicate → String
  | .alwaysFalse => "false"
  | .oeq => "oeq"
  | .ogt => "ogt"
  | .oge => "oge"
  | .olt => "olt"
  | .ole => "ole"
  | .one => "one"
  | .ord => "ord"
  | .ueq => "ueq"
  | .ugt => "ugt"
  | .uge => "uge"
  | .ult => "ult"
  | .ule => "ule"
  | .une => "une"
  | .uno => "uno"
  | .alwaysTrue => "true"

/-- Map a cmpf predicate keyword back to the enum (case-sensitively). -/
def cmpfPredOfKeyword : String → Option CmpFPredicate
  | "false" => some .alwaysFalse
  | "oeq" => some .oeq
  | "ogt" => some .ogt
  | "oge" => some .oge
  | "olt" => some .olt
  | "ole" => some .ole
  | "one" => some .one
  | "ord" => some .ord
  | "ueq" => some .ueq
  | "ugt" => some .ugt
  | "uge" => some .uge
  | "ult" => some .ult
  | "ule" => some .ule
  | "une" => some .une
  | "uno" => some .uno
  | "true" => some .alwaysTrue
  | _ => none

/-- The twenty integer binary operations of the source sharing the
`Arith_BinaryOp` assembly format. -/
inductive IntBinKind where
  | addi | subi | muli | divui | divsi | ceildivui | ceildivsi | floordivsi
  | remui | remsi | andi | ori | xori | shli | shrui | shrsi
  | maxsi | maxui | minsi | minui
  deriving DecidableEq, Repr

/-- The mnemonic of an integer binary operation. -/
def intBinMnemonic : IntBinKind → String
  | .addi => "arith.addi"
  | .subi => "arith.subi"
  | .muli => "arith.muli"
  | .divui => "arith.divui"
  | .divsi => "arith.divsi"
  | .ceildivui => "arith.ceildivui"
  | .ceildivsi => "arith.ceildivsi"
  | .floordivsi => "arith.floordivsi"
  | .remui => "arith.remui"
  | .remsi => "arith.remsi"
  | .andi => "arith.andi"
  | .ori => "arith.ori"
  | .xori => "arith.xori"
  | .shli => "arith.shli"
  | .shrui => "arith.shrui"
  | .shrsi => "arith.shrsi"
  | .maxsi => "arith.maxsi"
  | .maxui => "arith.maxui"
  | .minsi => "arith.minsi"
  | .minui => "arith.minui"

/-- Recover an integer binary kind from its mnemonic. -/
def intBinKindOfMnemonic : String → Option IntBinKind
  | "arith.addi" => some .addi
  | "arith.subi" => some .subi
  | "arith.muli" => some .muli
  | "arith.divui" => some .divui
  | "arith.divsi" => some .divsi
  | "arith.ceildivui" => some .ceildivui
  | "arith.ceildivsi" => some .ceildivsi
  | "arith.floordivsi" => some .floordivsi
  | "arith.remui" => some .remui
  | "arith.remsi" => some .remsi
  | "arith.andi" => some .andi
  | "arith.ori" => some .ori
  | "arith.xori" => some .xori
  | "arith.shli" => some .shli
  | "arith.shrui" => some .shrui
  | "arith.shrsi" => some .shrsi
  | "arith.maxsi" => some .maxsi
  | "arith.maxui" => some .maxui
  | "arith.minsi" => some .minsi
  | "arith.minui" => some .minui
  | _ => none

/-- The seven float binary operations of the source sharing the
`Arith_FloatBinaryOp` assembly format. -/
inductive FloatBinKind where
  | addf | subf | mulf | divf | remf | maxf | minf
  deriving DecidableEq, Repr

/-- The mnemonic of a float binary operation. -/
def floatBinMnemonic : FloatBinKind → String
  | .addf => "arith.addf"
  | .subf => "arith.subf"
  | .mulf => "arith.mulf"
  | .divf => "arith.divf"
  | .remf => "arith.remf"
  | .maxf => "arith.maxf"
  | .minf => "arith.minf"

/-- Recover a float binary kind from its mnemonic. -/
def floatBinKindOfMnemonic : String → Option FloatBinKind
  | "arith.addf" => some .addf
  | "arith.subf" => some .subf
  | "arith.mulf" => some .mulf
  | "arith.divf" => some .divf
  | "arith.remf" => some .remf
  | "arith.maxf" => some .maxf
  | "arith.minf" => some .minf
  | _ => none

/-- A constant op: `attr-dict $value` (the value attribute carries its
own type, which is also the result type by `AllTypesMatch`). -/
structure ConstIR where
  result : String
  attrs : List (String × ℕ)
  value : TypedAttr
  deriving DecidableEq, Repr

/-- An integer binary op in the `Arith_BinaryOp` format. -/
structure IntBinIR where
  result : String
  kind : IntBinKind
  lhs : String
  rhs : String
  attrs : List (String × ℕ)
  resType : MType
  deriving DecidableEq, Repr

/-- A float binary op; `fastmath` is the bitset attribute, `0` being
the default `none` (omitted from the surface). -/
structure FloatBinIR where
  result : String
  kind : FloatBinKind
  lhs : String
  rhs : String
  fastmath : ℕ
  attrs : List (String × ℕ)
  resType : MType
  deriving DecidableEq, Repr

/-- The float unary op negf, with its optional fastmath flag. -/
structure NegFIR where
  result : String
  operand : String
  fastmath : ℕ
  attrs : List (String × ℕ)
  resType : MType
  deriving DecidableEq, Repr

/-- A cmpf op: predicate, operands, and the lhs type (the result type
is derived through `getI1SameShape`). -/
structure CmpFIR where
  result : String
  pred : CmpFPredicate
  lhs : String
  rhs : String
  attrs : List (String × ℕ)
  lhsType : MType
  deriving DecidableEq, Repr

/-- An addui_extended op: two results (sum and overflow), both result
types printed. -/
structure AddUIExtIR where
  sumName : String
  overflowName : String
  lhs : String
  rhs : String
  attrs : List (String × ℕ)
  sumType : MType
  overflowType : MType
  deriving DecidableEq, Repr

/-- A mulsi_extended/mului_extended op: two results (low and high) and
a single printed type (`type($lhs)`). -/
structure MulExtIR where
  lowName : String
  highName : String
  signedVariant : Bool
  lhs : String
  rhs : String
  attrs : List (String × ℕ)
  lhsType : MType
  deriving DecidableEq, Repr

/-- A select op in the spec's custom form: when the condition is a
scalar Bool only the result type is printed; a shaped condition prints
its own type first. -/
structure SelectIR where
  result : String
  cond : String
  tval : String
  fval : String
  attrs : List (String × ℕ)
  condType : MType
  resType : MType
  deriving DecidableEq, Repr

/-- An operation of the dialect, as structured IR. -/
inductive ArithOpIR where
  | constantOp (c : ConstIR)
  | intBin (b : IntBinIR)
  | floatBin (b : FloatBinIR)
  | floatUnary (u : NegFIR)
  | cast (c : CastIR)
  | cmpiOp (c : CmpIIR)
  | cmpfOp (c : CmpFIR)
  | adduiExtended (e : AddUIExtIR)
  | mulExtended (e : MulExtIR)
  | selectOp (s : SelectIR)
  deriving DecidableEq, Repr

/-- Print an operation in its fixed surface form. -/
def printOp : ArithOpIR → List Token
  | .constantOp c =>
    [.ssaId c.result, .assign, .opName ("arith.constant"), .attrDict c.attrs,
     .valueAttr c.value]
  | .intBin b =>
    [.ssaId b.result, .assign, .opName (intBinMnemonic b.kind), .ssaId b.lhs,
     .comma, .ssaId b.rhs, .attrDict b.attrs, .colon, .typeLit b.resType]
  | .floatBin b =>
    if b.fastmath = 0 then
      [.ssaId b.result, .assign, .opName (floatBinMnemonic b.kind), .ssaId b.lhs,
       .comma, .ssaId b.rhs, .attrDict b.attrs, .colon, .typeLit b.resType]
    else
      [.ssaId b.result, .assign, .opName (floatBinMnemonic b.kind), .ssaId b.lhs,
       .comma, .ssaId b.rhs, .kwFastmath, .fmLit b.fastmath, .attrDict b.attrs,
       .colon, .typeLit b.resType]
  | .floatUnary u =>
    if u.fastmath = 0 then
      [.ssaId u.result, .assign, .opName ("arith.negf"), .ssaId u.operand,
       .attrDict u.attrs, .colon, .typeLit u.resType]
    else
      [.ssaId u.result, .assign, .opName ("arith.negf"), .ssaId u.operand,
       .kwFastmath, .fmLit u.fastmath, .attrDict u.attrs, .colon,
       .typeLit u.resType]
  | .cast c =>
    [.ssaId c.result, .assign, .opName (castMnemonic c.kind), .ssaId c.operand,
     .attrDict c.attrs, .colon, .typeLit c.srcType, .kwTo, .typeLit c.dstType]
  | .cmpiOp c =>
    [.ssaId c.result, .assign, .opName ("arith.cmpi"), .predKw (predKeyword c.pred),
     .comma, .ssaId c.lhs, .comma, .ssaId c.rhs, .attrDict c.attrs,
     .colon, .typeLit c.lhsType]
  | .cmpfOp c =>
    [.ssaId c.result, .assign, .opName ("arith.cmpf"),
     .predKw (cmpfPredKeyword c.pred), .comma, .ssaId c.lhs, .comma, .ssaId c.rhs,
     .attrDict c.attrs, .colon, .typeLit c.lhsType]
  | .adduiExtended e =>
    [.ssaId e.sumName, .comma, .ssaId e.overflowName, .assign,
     .opName ("arith.addui_extended"), .ssaId e.lhs, .comma, .ssaId e.rhs,
     .attrDict e.attrs, .colon, .typeLit e.sumType, .comma, .typeLit e.overflowType]
  | .mulExtended e =>
    [.ssaId e.lowName, .comma, .ssaId e.highName, .assign,
     .opName (if e.signedVariant then "arith.mulsi_extended" else "arith.mului_extended"),
     .ssaId e.lhs, .comma, .ssaId e.rhs, .attrDict e.attrs, .colon,
     .typeLit e.lhsType]
  | .selectOp s =>
    if s.condType = MType.scalar (ScalarType.int 1) then
      [.ssaId s.result, .assign, .opName ("arith.select"), .ssaId s.cond, .comma,
       .ssaId s.tval, .comma, .ssaId s.fval, .attrDict s.attrs, .colon,
       .typeLit s.resType]
    else
      [.ssaId s.result, .assign, .opName ("arith.select"), .ssaId s.cond, .comma,
       .ssaId s.tval, .comma, .ssaId s.fval, .attrDict s.attrs, .colon,
       .typeLit s.condType, .comma, .typeLit s.resType]

/-- Parse an operation from its textual form; the op family is routed
by the token shape and the mnemonic. -/
def parseOp : List Token → Option ArithOpIR
  | [.ssaId res, .assign, .opName ("arith.constant"), .attrDict a, .valueAttr v] =>
    some (.constantOp ⟨res, a, v⟩)
  | [.ssaId res, .assign, .opName m, .ssaId i, .attrDict a, .colon, .typeLit t1,
     .kwTo, .typeLit t2] =>
    match castKindOfMnemonic m with
    | some k => some (.cast ⟨res, k, i, a, t1, t2⟩)
    | none => none
  | [.ssaId res, .assign, .opName ("arith.negf"), .ssaId x, .attrDict a, .colon,
     .typeLit t] =>
    some (.floatUnary ⟨res, x, 0, a, t⟩)
  | [.ssaId res, .assign, .opName ("arith.negf"), .ssaId x, .kwFastmath, .fmLit f,
     .attrDict a, .colon, .typeLit t] =>
    some (.floatUnary ⟨res, x, f, a, t⟩)
  | [.ssaId res, .assign, .opName m, .ssaId l, .comma, .ssaId r, .attrDict a,
     .colon, .typeLit t] =>
    match intBinKindOfMnemonic m with
    | some k => some (.intBin ⟨res, k, l, r, a, t⟩)
    | none =>
      match floatBinKindOfMnemonic m with
      | some k => some (.floatBin ⟨res, k, l, r, 0, a, t⟩)
      | none => none
  | [.ssaId res, .assign, .opName m, .ssaId l, .comma, .ssaId r, .kwFastmath,
     .fmLit f, .attrDict a, .colon, .typeLit t] =>
    match floatBinKindOfMnemonic m with
    | some k => some (.floatBin ⟨res, k, l, r, f, a, t⟩)
    | none => none
  | [.ssaId res, .assign, .opName ("arith.cmpi"), .predKw p, .comma, .ssaId l,
     .comma, .ssaId r, .attrDict a, .colon, .typeLit t] =>
    match predOfKeyword p with
    | some pr => some (.cmpiOp ⟨res, pr, l, r, a, t⟩)
    | none => none
  | [.ssaId res, .assign, .opName ("arith.cmpf"), .predKw p, .comma, .ssaId l,
     .comma, .ssaId r, .attrDict a, .colon, .typeLit t] =>
    match cmpfPredOfKeyword p with
    | some pr => some (.cmpfOp ⟨res, pr, l, r, a, t⟩)
    | none => none
  | [.ssaId s, .comma, .ssaId o, .assign, .opName ("arith.addui_extended"),
     .ssaId l, .comma, .ssaId r, .attrDict a, .colon, .typeLit t1, .comma,
     .typeLit t2] =>
    some (.adduiExtended ⟨s, o, l, r, a, t1, t2⟩)
  | [.ssaId lo, .comma, .ssaId hi, .assign, .opName ("arith.mulsi_extended"),
     .ssaId l, .comma, .ssaId r, .attrDict a, .colon, .typeLit t] =>
    some (.mulExtended ⟨lo, hi, true, l, r, a, t⟩)
  | [.ssaId lo, .comma, .ssaId hi, .assign, .opName ("arith.mului_extended"),
     .ssaId l, .comma, .ssaId r, .attrDict a, .colon, .typeLit t] =>
    some (.mulExtended ⟨lo, hi, false, l, r, a, t⟩)
  | [.ssaId res, .assign, .opName ("arith.select"), .ssaId c, .comma, .ssaId tv,
     .comma, .ssaId fv, .attrDict a, .colon, .typeLit t] =>
    some (.selectOp ⟨res, c, tv, fv, a, MType.scalar (ScalarType.int 1), t⟩)
  | [.ssaId res, .assign, .opName ("arith.select"), .ssaId c, .comma, .ssaId tv,
     .comma, .ssaId fv, .attrDict a, .colon, .typeLit t1, .comma, .typeLit t2] =>
    some (.selectOp ⟨res, c, tv, fv, a, t1, t2⟩)
  | _ => none

/-- Claim C9: parsing the printed textual form of any well-formed op of
the dialect returns the op unchanged (structural equality, attributes
carried verbatim), each family printed in its fixed surface form. -/
theorem parse_print_roundtrip :
    ∀ op : ArithOpIR, parseOp (printOp op) = some op := by
  intro op
  cases op with
  | constantOp c =>
    obtain ⟨res, a, v⟩ := c
    rfl
  | intBin b =>
    obtain ⟨res, k, l, r, a, t⟩ := b
    cases k <;> rfl
  | floatBin b =>
    obtain ⟨res, k, l, r, fm, a, t⟩ := b
    by_cases hm : fm = 0
    · subst hm
      cases k <;> rfl
    · cases k <;> (simp only [printOp]; rw [if_neg hm]; rfl)
  | floatUnary u =>
    obtain ⟨res, x, fm, a, t⟩ := u
    by_cases hm : fm = 0
    · subst hm
      rfl
    · simp only [printOp]
      rw [if_neg hm]
      rfl
  | cast c =>
    obtain ⟨res, k, i, a, t1, t2⟩ := c
    cases k <;> rfl
  | cmpiOp c =>
    obtain ⟨res, p, l, r, a, t⟩ := c
    cases p <;> rfl
  | cmpfOp c =>
    obtain ⟨res, p, l, r, a, t⟩ := c
    cases p <;> rfl
  | adduiExtended e =>
    obtain ⟨s, o, l, r, a, t1, t2⟩ := e
    rfl
  | mulExtended e =>
    obtain ⟨lo, hi, sv, l, r, a, t⟩ := e
    cases sv <;> rfl
  | selectOp s =>
    obtain ⟨res, c, tv, fv, a, ct, rt⟩ := s
    by_cases hc : ct = MType.scalar (ScalarType.int 1)
    · subst hc
      rfl
    · simp only [printOp]
      rw [if_neg hc]
      rfl

/-! ## Integer range inference (claim C3)

Modelled from the spec: the transfer functions declared through
`InferIntRangeInterface` on `Arith_IntBinaryOp` are not under src/.  A
range is a pair of intervals, one per sign interpretation (§4.5); the
transfer functions for addi, subi and muli propagate the interval
arithmetic result and widen a component to the full range of the result
bit-width when the computed interval does not fit that width in the
corresponding interpretation. -/

/-- An integer range: `{unsigned: [umin,umax], signed: [smin,smax]}`. -/
structure IntRange where
  umin : ℕ
  umax : ℕ
  smin : ℤ
  smax : ℤ
  deriving DecidableEq, Repr

/-- A width-`N` bit pattern `v` lies in a range when both of its
readings lie in the corresponding interval. -/
def IntRange.contains (N : ℕ) (r : IntRange) (v : ℕ) : Prop :=
  r.umin ≤ v ∧ v ≤ r.umax ∧ r.smin ≤ toSigned N v ∧ toSigned N v ≤ r.smax

instance (N : ℕ) (r : IntRange) (v : ℕ) : Decidable (IntRange.contains N r v) := by
  unfold IntRange.contains
  exact inferInstance

/-- The integer binary operations whose transfer functions the claim
names: addi, subi, muli. -/
inductive RangeOpKind where
  | addi | subi | muli
  deriving DecidableEq, Repr

/-- The underlying integer operation. -/
def rangeOpRaw (k : RangeOpKind) (x y : ℤ) : ℤ :=
  match k with
  | .addi => x + y
  | .subi => x - y
  | .muli => x * y

/-- Width-`N` semantics of the op on bit patterns: the integer result
truncated to the width. -/
def rangeOpSem (k : RangeOpKind) (N : ℕ) (x y : ℕ) : ℕ :=
  toUnsigned N (rangeOpRaw k (x : ℤ) (y : ℤ))

/-- Lower end of the exact interval in the unsigned interpretation. -/
def uRawLo (k : RangeOpKind) (ra rb : IntRange) : ℤ :=
  match k with
  | .addi => (ra.umin : ℤ) + rb.umin
  | .subi => (ra.umin : ℤ) - rb.umax
  | .muli => (ra.umin : ℤ) * rb.umin

/-- Upper end of the exact interval in the unsigned interpretation. -/
def uRawHi (k : RangeOpKind) (ra rb : IntRange) : ℤ :=
  match k with
  | .addi => (ra.umax : ℤ) + rb.umax
  | .subi => (ra.umax : ℤ) - rb.umin
  | .muli => (ra.umax : ℤ) * rb.umax

/-- Lower end of the exact interval in the signed interpretation. -/
def sRawLo (k : RangeOpKind) (ra rb : IntRange) : ℤ :=
  match k with
  | .addi => ra.smin + rb.smin
  | .subi => ra.smin - rb.smax
  | .muli => min (min (ra.smin * rb.smin) (ra.smin * rb.smax))
               (min (ra.smax * rb.smin) (ra.smax * rb.smax))

/-- Upper end of the exact interval in the signed interpretation. -/
def sRawHi (k : RangeOpKind) (ra rb : IntRange) : ℤ :=
  match k with
  | .addi => ra.smax + rb.smax
  | .subi => ra.smax - rb.smin
  | .muli => max (max (ra.smin * rb.smin) (ra.smin * rb.smax))
               (max (ra.smax * rb.smin) (ra.smax * rb.smax))

/-- The computed unsigned interval fits the width. -/
def uFits (k : RangeOpKind) (N : ℕ) (ra rb : IntRange) : Prop :=
  0 ≤ uRawLo k ra rb ∧ uRawHi k ra rb ≤ (2 : ℤ) ^ N - 1

/-- The computed signed interval fits the width. -/
def sFits (k : RangeOpKind) (N : ℕ) (ra rb : IntRange) : Prop :=
  -(2 : ℤ) ^ (N - 1) ≤ sRawLo k ra rb ∧ sRawHi k ra rb ≤ (2 : ℤ) ^ (N - 1) - 1

instance (k : RangeOpKind) (N : ℕ) (ra rb : IntRange) : Decidable (uFits k N ra rb) := by
  unfold uFits
  exact inferInstance

instance (k : RangeOpKind) (N : ℕ) (ra rb : IntRange) : Decidable (sFits k N ra rb) := by
  unfold sFits
  exact inferInstance

/-- Modelled from the spec: `infer_int_range` for addi, subi and muli.
Each component propagates the exact interval when it fits the result
bit-width and otherwise widens to the full (top) range of that width. -/
def infer_int_range (k : RangeOpKind) (N : ℕ) (ra rb : IntRange) : IntRange :=
  { umin := if uFits k N ra rb then (uRawLo k ra rb).toNat else 0
    umax := if uFits k N ra rb then (uRawHi k ra rb).toNat else 2 ^ N - 1
    smin := if sFits k N ra rb then sRawLo k ra rb else -(2 : ℤ) ^ (N - 1)
    smax := if sFits k N ra rb then sRawHi k ra rb else (2 : ℤ) ^ (N - 1) - 1 }

theorem two_pow_split (N : ℕ) (hN : 0 < N) :
    (2 : ℤ) ^ N = 2 ^ (N - 1) + 2 ^ (N - 1) := by
  have h : N - 1 + 1 = N := by omega
  conv_lhs => rw [← h]
  rw [pow_succ]
  ring

theorem toSigned_bounds (N v : ℕ) (hN : 0 < N) (hv : v < 2 ^ N) :
    -(2 : ℤ) ^ (N - 1) ≤ toSigned N v ∧ toSigned N v ≤ (2 : ℤ) ^ (N - 1) - 1 := by
  have hsplit := two_pow_split N hN
  have hp : (0 : ℤ) < 2 ^ (N - 1) := by positivity
  have hvz : (v : ℤ) < 2 ^ N := by
    calc (v : ℤ) < ((2 ^ N : ℕ) : ℤ) := by exact_mod_cast hv
    _ = (2 : ℤ) ^ N := by push_cast; ring
  unfold toSigned
  split_ifs with hlt
  · have h1 : (v : ℤ) < 2 ^ (N - 1) := by
      calc (v : ℤ) < ((2 ^ (N - 1) : ℕ) : ℤ) := by exact_mod_cast hlt
      _ = (2 : ℤ) ^ (N - 1) := by push_cast; ring
    have h0 : (0 : ℤ) ≤ v := Int.natCast_nonneg v
    constructor
    · linarith
    · omega
  · have h1 : (2 : ℤ) ^ (N - 1) ≤ v := by
      have := Nat.le_of_not_lt hlt
      calc (2 : ℤ) ^ (N - 1) = ((2 ^ (N - 1) : ℕ) : ℤ) := by push_cast; ring
      _ ≤ (v : ℤ) := by exact_mod_cast this
    constructor
    · linarith
    · omega

theorem toSigned_eq_of_bounds (N v : ℕ) (hN : 0 < N) (hv : v < 2 ^ N) (s : ℤ)
    (hlo : -(2 : ℤ) ^ (N - 1) ≤ s) (hhi : s ≤ (2 : ℤ) ^ (N - 1) - 1)
    (hcong : ((v : ℤ)) ≡ s [ZMOD (2 : ℤ) ^ N]) : toSigned N v = s := by
  have hb := toSigned_bounds N v hN hv
  have hsplit := two_pow_split N hN
  have hc2 : toSigned N v ≡ s [ZMOD (2 : ℤ) ^ N] := (toSigned_modEq N v).trans hcong
  have hdvd : ((2 : ℤ) ^ N) ∣ (s - toSigned N v) := Int.ModEq.dvd hc2
  obtain ⟨t, ht⟩ := hdvd
  have hpow : (0 : ℤ) < 2 ^ N := by positivity
  have h1 : s - toSigned N v < 2 ^ N := by linarith [hb.1]
  have h2 : -(2 : ℤ) ^ N < s - toSigned N v := by linarith [hb.2]
  rw [ht] at h1 h2
  have ht0 : t = 0 := by
    by_contra h
    rcases lt_or_gt_of_ne h with hneg | hpos
    · have hle : t ≤ -1 := by omega
      have : 2 ^ N * t ≤ 2 ^ N * (-1) :=
        mul_le_mul_of_nonneg_left hle (le_of_lt hpow)
      linarith
    · have hle : (1 : ℤ) ≤ t := by omega
      have : 2 ^ N * 1 ≤ 2 ^ N * t :=
        mul_le_mul_of_nonneg_left hle (le_of_lt hpow)
      linarith
  rw [ht0, mul_zero] at ht
  linarith [sub_eq_zero.mp ht]

theorem mul_le_corners {a b c d x y : ℤ} (ha : a ≤ x) (hb : x ≤ b) (hc : c ≤ y) (hd : y ≤ d) :
    x * y ≤ max (max (a * c) (a * d)) (max (b * c) (b * d)) := by
  rcases le_or_lt 0 y with hy | hy
  · have h1 : x * y ≤ b * y := mul_le_mul_of_nonneg_right hb hy
    rcases le_or_lt 0 b with hb0 | hb0
    · have h2 : b * y ≤ b * d := mul_le_mul_of_nonneg_left hd hb0
      exact le_trans h1 (le_trans h2 (le_max_of_le_right (le_max_right _ _)))
    · have h2 : b * y ≤ b * c := mul_le_mul_of_nonpos_left hc (le_of_lt hb0)
      exact le_trans h1 (le_trans h2 (le_max_of_le_right (le_max_left _ _)))
  · have h1 : x * y ≤ a * y := mul_le_mul_of_nonpos_right ha (le_of_lt hy)
    rcases le_or_lt 0 a with ha0 | ha0
    · have h2 : a * y ≤ a * d := mul_le_mul_of_nonneg_left hd ha0
      exact le_trans h1 (le_trans h2 (le_max_of_le_left (le_max_right _ _)))
    · have h2 : a * y ≤ a * c := mul_le_mul_of_nonpos_left hc (le_of_lt ha0)
      exact le_trans h1 (le_trans h2 (le_max_of_le_left (le_max_left _ _)))

theorem corners_le_mul {a b c d x y : ℤ} (ha : a ≤ x) (hb : x ≤ b) (hc : c ≤ y) (hd : y ≤ d) :
    min (min (a * c) (a * d)) (min (b * c) (b * d)) ≤ x * y := by
  rcases le_or_lt 0 y with hy | hy
  · have h1 : a * y ≤ x * y := mul_le_mul_of_nonneg_right ha hy
    rcases le_or_lt 0 a with ha0 | ha0
    · have h2 : a * c ≤ a * y := mul_le_mul_of_nonneg_left hc ha0
      exact le_trans (min_le_of_left_le (min_le_left _ _)) (le_trans h2 h1)
    · have h2 : a * d ≤ a * y := mul_le_mul_of_nonpos_left hd (le_of_lt ha0)
      exact le_trans (min_le_of_left_le (min_le_right _ _)) (le_trans h2 h1)
  · have h1 : b * y ≤ x * y := mul_le_mul_of_nonpos_right hb (le_of_lt hy)
    rcases le_or_lt 0 b with hb0 | hb0
    · have h2 : b * c ≤ b * y := mul_le_mul_of_nonneg_left hc hb0
      exact le_trans (min_le_of_right_le (min_le_left _ _)) (le_trans h2 h1)
    · have h2 : b * d ≤ b * y := mul_le_mul_of_nonpos_left hd (le_of_lt hb0)
      exact le_trans (min_le_of_right_le (min_le_right _ _)) (le_trans h2 h1)

/-- The exact-interval transfer functions of addi, subi and muli are
sound, and each component widens to the full range of the width when
the computed interval does not fit the width in that interpretation. -/
theorem rangeOpExact_sound (k : RangeOpKind) (N : ℕ) (ra rb : IntRange)
    (x y : ℕ) (hN : 0 < N)
    (hxr : IntRange.contains N ra x) (hyr : IntRange.contains N rb y) :
    IntRange.contains N (infer_int_range k N ra rb) (rangeOpSem k N x y) ∧
    (¬ uFits k N ra rb → (infer_int_range k N ra rb).umin = 0 ∧
        (infer_int_range k N ra rb).umax = 2 ^ N - 1) ∧
    (¬ sFits k N ra rb → (infer_int_range k N ra rb).smin = -(2 : ℤ) ^ (N - 1) ∧
        (infer_int_range k N ra rb).smax = (2 : ℤ) ^ (N - 1) - 1) := by
  obtain ⟨hxu1, hxu2, hxs1, hxs2⟩ := hxr
  obtain ⟨hyu1, hyu2, hys1, hys2⟩ := hyr
  have hxu1' : (ra.umin : ℤ) ≤ (x : ℤ) := by exact_mod_cast hxu1
  have hxu2' : (x : ℤ) ≤ (ra.umax : ℤ) := by exact_mod_cast hxu2
  have hyu1' : (rb.umin : ℤ) ≤ (y : ℤ) := by exact_mod_cast hyu1
  have hyu2' : (y : ℤ) ≤ (rb.umax : ℤ) := by exact_mod_cast hyu2
  have huLo : uRawLo k ra rb ≤ rangeOpRaw k (x : ℤ) (y : ℤ) := by
    cases k with
    | addi => show (ra.umin : ℤ) + rb.umin ≤ (x : ℤ) + y; linarith
    | subi => show (ra.umin : ℤ) - rb.umax ≤ (x : ℤ) - y; linarith
    | muli =>
      exact mul_le_mul hxu1' hyu1' (Int.natCast_nonneg _) (Int.natCast_nonneg _)
  have huHi : rangeOpRaw k (x : ℤ) (y : ℤ) ≤ uRawHi k ra rb := by
    cases k with
    | addi => show (x : ℤ) + y ≤ (ra.umax : ℤ) + rb.umax; linarith
    | subi => show (x : ℤ) - y ≤ (ra.umax : ℤ) - rb.umin; linarith
    | muli =>
      exact mul_le_mul hxu2' hyu2' (Int.natCast_nonneg _)
        (le_trans (Int.natCast_nonneg _) hxu2')
  have hsLo : sRawLo k ra rb ≤ rangeOpRaw k (toSigned N x) (toSigned N y) := by
    cases k with
    | addi => show ra.smin + rb.smin ≤ toSigned N x + toSigned N y; linarith
    | subi => show ra.smin - rb.smax ≤ toSigned N x - toSigned N y; linarith
    | muli => exact corners_le_mul hxs1 hxs2 hys1 hys2
  have hsHi : rangeOpRaw k (toSigned N x) (toSigned N y) ≤ sRawHi k ra rb := by
    cases k with
    | addi => show toSigned N x + toSigned N y ≤ ra.smax + rb.smax; linarith
    | subi => show toSigned N x - toSigned N y ≤ ra.smax - rb.smin; linarith
    | muli => exact mul_le_corners hxs1 hxs2 hys1 hys2
  have hvcast : ((rangeOpSem k N x y : ℕ) : ℤ) = rangeOpRaw k (x : ℤ) (y : ℤ) % (2 : ℤ) ^ N := by
    unfold rangeOpSem toUnsigned
    exact Int.toNat_of_nonneg (Int.emod_nonneg _ (by positivity))
  have hvlt : ((rangeOpSem k N x y : ℕ) : ℤ) < (2 : ℤ) ^ N := by
    rw [hvcast]
    exact Int.emod_lt_of_pos _ (by positivity)
  have hvnat : rangeOpSem k N x y < 2 ^ N := by
    have h : ((rangeOpSem k N x y : ℕ) : ℤ) < ((2 ^ N : ℕ) : ℤ) := by
      rw [show ((2 ^ N : ℕ) : ℤ) = (2 : ℤ) ^ N by push_cast; ring]
      exact hvlt
    exact_mod_cast h
  have hcong : ((rangeOpSem k N x y : ℕ) : ℤ) ≡
      rangeOpRaw k (toSigned N x) (toSigned N y) [ZMOD (2 : ℤ) ^ N] := by
    rw [hvcast]
    have h1 : rangeOpRaw k (x : ℤ) (y : ℤ) % (2 : ℤ) ^ N ≡
        rangeOpRaw k (x : ℤ) (y : ℤ) [ZMOD (2 : ℤ) ^ N] := by
      unfold Int.ModEq
      exact Int.emod_emod_of_dvd _ dvd_rfl
    have h2 : rangeOpRaw k (x : ℤ) (y : ℤ) ≡
        rangeOpRaw k (toSigned N x) (toSigned N y) [ZMOD (2 : ℤ) ^ N] := by
      have hsx := (toSigned_modEq N x).symm
      have hsy := (toSigned_modEq N y).symm
      cases k with
      | addi => exact hsx.add hsy
      | subi => exact hsx.sub hsy
      | muli => exact hsx.mul hsy
    exact h1.trans h2
  refine ⟨⟨?_, ?_, ?_, ?_⟩, ?_, ?_⟩
  · show (if uFits k N ra rb then (uRawLo k ra rb).toNat else 0) ≤ rangeOpSem k N x y
    by_cases hu : uFits k N ra rb
    · rw [if_pos hu, Int.toNat_le, hvcast]
      have hraw_eq : rangeOpRaw k (x : ℤ) (y : ℤ) % (2 : ℤ) ^ N =
          rangeOpRaw k (x : ℤ) (y : ℤ) :=
        Int.emod_eq_of_lt (le_trans hu.1 huLo) (by linarith [hu.2, huHi])
      rw [hraw_eq]
      exact huLo
    · rw [if_neg hu]
      exact Nat.zero_le _
  · show rangeOpSem k N x y ≤ (if uFits k N ra rb then (uRawHi k ra rb).toNat else 2 ^ N - 1)
    by_cases hu : uFits k N ra rb
    · rw [if_pos hu,
        Int.le_toNat (le_trans (le_trans hu.1 huLo) huHi)]
      have hraw_eq : rangeOpRaw k (x : ℤ) (y : ℤ) % (2 : ℤ) ^ N =
          rangeOpRaw k (x : ℤ) (y : ℤ) :=
        Int.emod_eq_of_lt (le_trans hu.1 huLo) (by linarith [hu.2, huHi])
      rw [← hvcast] at hraw_eq
      rw [← hraw_eq] at huHi
      exact_mod_cast huHi
    · rw [if_neg hu]
      omega
  · show (if sFits k N ra rb then sRawLo k ra rb else -(2 : ℤ) ^ (N - 1)) ≤
        toSigned N (rangeOpSem k N x y)
    by_cases hs : sFits k N ra rb
    · rw [if_pos hs]
      have hts : toSigned N (rangeOpSem k N x y) =
          rangeOpRaw k (toSigned N x) (toSigned N y) :=
        toSigned_eq_of_bounds N _ hN hvnat _
          (le_trans hs.1 hsLo) (le_trans hsHi hs.2) hcong
      rw [hts]
      exact hsLo
    · rw [if_neg hs]
      exact (toSigned_bounds N _ hN hvnat).1
  · show toSigned N (rangeOpSem k N x y) ≤
        (if sFits k N ra rb then sRawHi k ra rb else (2 : ℤ) ^ (N - 1) - 1)
    by_cases hs : sFits k N ra rb
    · rw [if_pos hs]
      have hts : toSigned N (rangeOpSem k N x y) =
          rangeOpRaw k (toSigned N x) (toSigned N y) :=
        toSigned_eq_of_bounds N _ hN hvnat _
          (le_trans hs.1 hsLo) (le_trans hsHi hs.2) hcong
      rw [hts]
      exact hsHi
    · rw [if_neg hs]
      exact (toSigned_bounds N _ hN hvnat).2
  · intro h
    constructor
    · show (if uFits k N ra rb then (uRawLo k ra rb).toNat else 0) = 0
      rw [if_neg h]
    · show (if uFits k N ra rb then (uRawHi k ra rb).toNat else 2 ^ N - 1) = 2 ^ N - 1
      rw [if_neg h]
  · intro h
    constructor
    · show (if sFits k N ra rb then sRawLo k ra rb else -(2 : ℤ) ^ (N - 1)) =
          -(2 : ℤ) ^ (N - 1)
      rw [if_neg h]
    · show (if sFits k N ra rb then sRawHi k ra rb else (2 : ℤ) ^ (N - 1) - 1) =
          (2 : ℤ) ^ (N - 1) - 1
      rw [if_neg h]

theorem toUnsigned_lt (N : ℕ) (s : ℤ) : toUnsigned N s < 2 ^ N := by
  have h1 : s % (2 : ℤ) ^ N < (2 : ℤ) ^ N := Int.emod_lt_of_pos _ (by positivity)
  have h2 : (0 : ℤ) ≤ s % (2 : ℤ) ^ N := Int.emod_nonneg _ (by positivity)
  have hcast : ((toUnsigned N s : ℕ) : ℤ) = s % (2 : ℤ) ^ N := by
    unfold toUnsigned
    exact Int.toNat_of_nonneg h2
  have h : ((toUnsigned N s : ℕ) : ℤ) < ((2 ^ N : ℕ) : ℤ) := by
    rw [hcast, show ((2 ^ N : ℕ) : ℤ) = (2 : ℤ) ^ N by push_cast; ring]
    exact h1
  exact_mod_cast h

theorem toUnsigned_modEq_self (N : ℕ) (s : ℤ) :
    ((toUnsigned N s : ℕ) : ℤ) ≡ s [ZMOD (2 : ℤ) ^ N] := by
  have hcast : ((toUnsigned N s : ℕ) : ℤ) = s % (2 : ℤ) ^ N := by
    unfold toUnsigned
    exact Int.toNat_of_nonneg (Int.emod_nonneg _ (by positivity))
  rw [hcast]
  unfold Int.ModEq
  exact Int.emod_emod_of_dvd _ dvd_rfl

theorem toSigned_toUnsigned (N : ℕ) (hN : 0 < N) (q : ℤ)
    (hlo : -(2 : ℤ) ^ (N - 1) ≤ q) (hhi : q ≤ (2 : ℤ) ^ (N - 1) - 1) :
    toSigned N (toUnsigned N q) = q :=
  toSigned_eq_of_bounds N _ hN (toUnsigned_lt N q) q hlo hhi (toUnsigned_modEq_self N q)

theorem toUnsigned_mod (K N : ℕ) (hKN : K ≤ N) (s : ℤ) :
    toUnsigned N s % 2 ^ K = toUnsigned K s := by
  have h1 : toUnsigned K ((toUnsigned N s : ℕ) : ℤ) = toUnsigned K s := by
    apply toUnsigned_congr
    exact ((toUnsigned_modEq_self N s).of_dvd (pow_dvd_pow 2 hKN))
  rw [toUnsigned_natCast] at h1
  exact h1

/-! ## Cast constant folders (claim C7)

Modelled from the spec: the folder bodies behind `hasFolder = 1` on the
cast operations are not under src/; the folds use exact width
arithmetic per the spec and the in-source descriptions (extui fills the
top bits with zeros, extsi with copies of the sign bit, trunci discards
the top bits, bitcast reinterprets the logical bit pattern unchanged).
The numeric rounding of truncf follows the destination float semantics,
which is outside the integer model (a spec §1 non-goal); its declared
folder is covered by the `hasFolder` registry. -/

/-- Modelled from the spec: the extui folder; zero extension of a
width-`src` pattern to width `dst` keeps the pattern. -/
def extui_fold (src dst v : ℕ) : ℕ := v

/-- Modelled from the spec: the extsi folder; sign extension re-encodes
the signed reading of the width-`src` pattern at width `dst`. -/
def extsi_fold (src dst v : ℕ) : ℕ := toUnsigned dst (toSigned src v)

/-- Modelled from the spec: the trunci folder; truncation keeps the low
`dst` bits of the pattern. -/
def trunci_fold (src dst v : ℕ) : ℕ := v % 2 ^ dst

/-- Modelled from the spec: the bitcast folder; an equal-bit-width cast
reinterprets the logical bit pattern unchanged. -/
def bitcast_fold (v : ℕ) : ℕ := v

/-- Claim C7 amended: extui, extsi, trunci, truncf, and bitcast each
declare a folder (extf declares only a verifier and no folder, so extf
does not constant-fold), and the folds compute with exact width
arithmetic: extui keeps the pattern, which stays valid and reads
non-negative at the wider width; extsi preserves the signed reading;
trunci reduces the pattern mod `2^dst` and inverts both extensions;
bitcast preserves the logical bit pattern. -/
theorem cast_fold_exact_width (M N v w : ℕ) (hM : 0 < M) (hMN : M < N)
    (hv : v < 2 ^ M) (hw : w < 2 ^ N) :
    (hasFolder ArithOp.extui = true ∧ hasFolder ArithOp.extsi = true ∧
     hasFolder ArithOp.trunci = true ∧ hasFolder ArithOp.truncf = true ∧
     hasFolder ArithOp.bitcast = true ∧ hasFolder ArithOp.extf = false ∧
     hasVerifier ArithOp.extf = true) ∧
    (extui_fold M N v = v ∧ extui_fold M N v < 2 ^ N ∧
     toSigned N (extui_fold M N v) = (v : ℤ)) ∧
    (toSigned N (extsi_fold M N v) = toSigned M v ∧ extsi_fold M N v < 2 ^ N) ∧
    (trunci_fold N M w < 2 ^ M ∧ trunci_fold N M w ≡ w [MOD 2 ^ M]) ∧
    (trunci_fold N M (extui_fold M N v) = v ∧
     trunci_fold N M (extsi_fold M N v) = v) ∧
    bitcast_fold (bitcast_fold w) = w := by
  have hMN' : M ≤ N - 1 := by omega
  have hpowM : (2 : ℕ) ^ M ≤ 2 ^ (N - 1) := Nat.pow_le_pow_right (by norm_num) hMN'
  have hvN1 : v < 2 ^ (N - 1) := lt_of_lt_of_le hv hpowM
  refine ⟨by decide, ⟨rfl, ?_, ?_⟩, ⟨?_, ?_⟩, ⟨?_, ?_⟩, ⟨?_, ?_⟩, rfl⟩
  · show v < 2 ^ N
    exact lt_of_lt_of_le hv (Nat.pow_le_pow_right (by norm_num) (le_of_lt hMN))
  · show toSigned N v = (v : ℤ)
    unfold toSigned
    rw [if_pos hvN1]
  · have hb := toSigned_bounds M v hM hv
    have hmono : (2 : ℤ) ^ (M - 1) ≤ (2 : ℤ) ^ (N - 1) :=
      pow_le_pow_right₀ (by norm_num) (by omega)
    exact toSigned_toUnsigned N (by omega) (toSigned M v)
      (by linarith [hb.1]) (by linarith [hb.2])
  · exact toUnsigned_lt N (toSigned M v)
  · exact Nat.mod_lt _ (by positivity)
  · show (w % 2 ^ M) % 2 ^ M = w % 2 ^ M
    exact Nat.mod_mod_of_dvd _ dvd_rfl
  · show v % 2 ^ M = v
    exact Nat.mod_eq_of_lt hv
  · show extsi_fold M N v % 2 ^ M = v
    unfold extsi_fold
    rw [toUnsigned_mod M N (le_of_lt hMN), toUnsigned_congr M (toSigned_modEq M v),
      toUnsigned_natCast, Nat.mod_eq_of_lt hv]

/-- Witness for C7 at the spec's own scenario: `5 : i3` sign-extended
to i6 keeps its signed reading −3 (pattern 61) and truncates back to 5;
zero-extended it stays pattern 5 reading +5. -/
theorem cast_fold_exact_width_witness :
    (toSigned 6 (extsi_fold 3 6 5) = toSigned 3 5 ∧ extsi_fold 3 6 5 < 2 ^ 6) ∧
    (trunci_fold 6 3 (extui_fold 3 6 5) = 5 ∧ trunci_fold 6 3 (extsi_fold 3 6 5) = 5) :=
  ⟨(cast_fold_exact_width 3 6 5 21 (by decide) (by decide) (by decide) (by decide)).2.2.1,
   (cast_fold_exact_width 3 6 5 21 (by decide) (by decide) (by decide) (by decide)).2.2.2.2.1⟩

/-! ## Division models and magnitude bounds

Floor and ceiling division over ℤ, expressed through Euclidean division
(`/` on ℤ) so that for a positive divisor `/` is itself the floor;
`Int.tdiv`/`Int.tmod` are the round-toward-zero pair.  The magnitude of
any of these quotients and remainders is bounded by the magnitude of
the numerator, which gives sound signed intervals for the division
family. -/

/-- Floor division on ℤ (rounds toward negative infinity; division by
zero gives 0 as with `/`). -/
def fdivInt (a b : ℤ) : ℤ := if 0 ≤ b then a / b else (-a) / (-b)

/-- Ceiling division on ℤ (rounds toward positive infinity). -/
def cdivInt (a b : ℤ) : ℤ := -(fdivInt (-a) b)

/-- Ceiling division on ℕ (division by zero gives 0). -/
def cdivNat (x y : ℕ) : ℕ := (x + y - 1) / y

theorem tdiv_bounds (a b : ℤ) : -|a| ≤ a.tdiv b ∧ a.tdiv b ≤ |a| := by
  have key : ∀ (p q : ℕ), (p : ℤ).tdiv (q : ℤ) = ((p / q : ℕ) : ℤ) := fun _ _ => rfl
  obtain ⟨m, rfl | rfl⟩ := Int.eq_nat_or_neg a
  · rw [abs_of_nonneg (Int.natCast_nonneg m)]
    obtain ⟨n, rfl | rfl⟩ := Int.eq_nat_or_neg b
    · rw [key m n]
      have h2 : ((m / n : ℕ) : ℤ) ≤ (m : ℤ) := by exact_mod_cast Nat.div_le_self m n
      have h3 : (0 : ℤ) ≤ ((m / n : ℕ) : ℤ) := Int.natCast_nonneg _
      constructor <;> linarith [Int.natCast_nonneg m]
    · rw [Int.tdiv_neg, key m n]
      have h2 : ((m / n : ℕ) : ℤ) ≤ (m : ℤ) := by exact_mod_cast Nat.div_le_self m n
      have h3 : (0 : ℤ) ≤ ((m / n : ℕ) : ℤ) := Int.natCast_nonneg _
      constructor <;> linarith
  · rw [abs_neg, abs_of_nonneg (Int.natCast_nonneg m)]
    obtain ⟨n, rfl | rfl⟩ := Int.eq_nat_or_neg b
    · rw [Int.neg_tdiv, key m n]
      have h2 : ((m / n : ℕ) : ℤ) ≤ (m : ℤ) := by exact_mod_cast Nat.div_le_self m n
      have h3 : (0 : ℤ) ≤ ((m / n : ℕ) : ℤ) := Int.natCast_nonneg _
      constructor <;> linarith
    · rw [Int.neg_tdiv, Int.tdiv_neg, neg_neg, key m n]
      have h2 : ((m / n : ℕ) : ℤ) ≤ (m : ℤ) := by exact_mod_cast Nat.div_le_self m n
      have h3 : (0 : ℤ) ≤ ((m / n : ℕ) : ℤ) := Int.natCast_nonneg _
      constructor <;> linarith

theorem tmod_bounds (a b : ℤ) : -|a| ≤ a.tmod b ∧ a.tmod b ≤ |a| := by
  have key : ∀ (p q : ℕ), ((p : ℤ) % (q : ℤ)) = ((p % q : ℕ) : ℤ) := fun p q =>
    (Int.natCast_mod p q).symm
  cases a with
  | ofNat m =>
    rw [show |Int.ofNat m| = ((m : ℕ) : ℤ) from abs_of_nonneg (Int.natCast_nonneg m)]
    cases b with
    | ofNat n =>
      rw [show (Int.ofNat m).tmod (Int.ofNat n) = ((m % n : ℕ) : ℤ) from key m n]
      have h2 : ((m % n : ℕ) : ℤ) ≤ (m : ℤ) := by exact_mod_cast Nat.mod_le m n
      have h3 : (0 : ℤ) ≤ ((m % n : ℕ) : ℤ) := Int.natCast_nonneg _
      constructor <;> linarith [Int.natCast_nonneg m]
    | negSucc n =>
      have h : (Int.ofNat m).tmod (Int.negSucc n) = ((m % (n + 1) : ℕ) : ℤ) := by
        show ((m : ℤ) % ((n : ℤ) + 1)) = _
        rw [show ((n : ℤ) + 1) = ((n + 1 : ℕ) : ℤ) by push_cast; ring]
        exact key m (n + 1)
      rw [h]
      have h2 : ((m % (n + 1) : ℕ) : ℤ) ≤ (m : ℤ) := by
        exact_mod_cast Nat.mod_le m (n + 1)
      have h3 : (0 : ℤ) ≤ ((m % (n + 1) : ℕ) : ℤ) := Int.natCast_nonneg _
      constructor <;> linarith [Int.natCast_nonneg m]
  | negSucc m =>
    rw [show |Int.negSucc m| = (((m + 1 : ℕ)) : ℤ) by rw [Int.abs_eq_natAbs]; rfl]
    cases b with
    | ofNat n =>
      have h : (Int.negSucc m).tmod (Int.ofNat n) = -(((m + 1) % n : ℕ) : ℤ) := by
        show -(((m : ℤ) + 1) % (n : ℤ)) = _
        rw [show ((m : ℤ) + 1) = ((m + 1 : ℕ) : ℤ) by push_cast; ring, key (m + 1) n]
      rw [h]
      have h2 : (((m + 1) % n : ℕ) : ℤ) ≤ ((m + 1 : ℕ) : ℤ) := by
        exact_mod_cast Nat.mod_le (m + 1) n
      have h3 : (0 : ℤ) ≤ (((m + 1) % n : ℕ) : ℤ) := Int.natCast_nonneg _
      constructor <;> linarith
    | negSucc n =>
      have h : (Int.negSucc m).tmod (Int.negSucc n) = -(((m + 1) % (n + 1) : ℕ) : ℤ) := by
        show -(((m : ℤ) + 1) % ((n : ℤ) + 1)) = _
        rw [show ((m : ℤ) + 1) = ((m + 1 : ℕ) : ℤ) by push_cast; ring,
            show ((n : ℤ) + 1) = ((n + 1 : ℕ) : ℤ) by push_cast; ring,
            key (m + 1) (n + 1)]
      rw [h]
      have h2 : (((m + 1) % (n + 1) : ℕ) : ℤ) ≤ ((m + 1 : ℕ) : ℤ) := by
        exact_mod_cast Nat.mod_le (m + 1) (n + 1)
      have h3 : (0 : ℤ) ≤ (((m + 1) % (n + 1) : ℕ) : ℤ) := Int.natCast_nonneg _
      constructor <;> linarith

theorem ediv_bounds_nonneg (a b : ℤ) (hb : 0 ≤ b) : -|a| ≤ a / b ∧ a / b ≤ |a| := by
  rcases le_or_lt 0 a with ha | ha
  · have h1 : 0 ≤ a / b := Int.ediv_nonneg ha hb
    have h2 : a / b ≤ a := Int.ediv_le_self b ha
    rw [abs_of_nonneg ha]
    constructor <;> linarith
  · rw [abs_of_neg ha]
    rcases eq_or_lt_of_le hb with hb0 | hbpos
    · rw [← hb0, Int.ediv_zero]
      constructor <;> linarith
    · have h1 : a ≤ a / b := by
        rw [Int.le_ediv_iff_mul_le hbpos]
        have := mul_le_mul_of_nonpos_left (Int.add_one_le_iff.mpr hbpos) (le_of_lt ha)
        simpa using this
      have h2 : a / b ≤ 0 := by
        have hlt : a / b < 1 := by
          rw [Int.ediv_lt_iff_lt_mul hbpos]
          linarith
        omega
      constructor <;> linarith

theorem ediv_bounds (a b : ℤ) : -|a| ≤ a / b ∧ a / b ≤ |a| := by
  rcases le_or_lt 0 b with hb | hb
  · exact ediv_bounds_nonneg a b hb
  · have h : a / b = -(a / (-b)) := by
      rw [show b = -(-b) by ring, Int.ediv_neg, neg_neg]
    rw [h]
    have hx := ediv_bounds_nonneg a (-b) (by linarith)
    constructor <;> linarith [hx.1, hx.2]

theorem fdivInt_bounds (a b : ℤ) : -|a| ≤ fdivInt a b ∧ fdivInt a b ≤ |a| := by
  unfold fdivInt
  split_ifs with hb
  · exact ediv_bounds a b
  · have hx := ediv_bounds (-a) (-b)
    rw [abs_neg] at hx
    exact hx

theorem cdivInt_bounds (a b : ℤ) : -|a| ≤ cdivInt a b ∧ cdivInt a b ≤ |a| := by
  unfold cdivInt
  have hx := fdivInt_bounds (-a) b
  rw [abs_neg] at hx
  constructor <;> linarith [hx.1, hx.2]

theorem cdivNat_le_self (x y : ℕ) (hy : 1 ≤ y) : cdivNat x y ≤ x := by
  unfold cdivNat
  have hxy : x ≤ x * y := Nat.le_mul_of_pos_right x hy
  have h1 : cdivNat x y < x + 1 := by
    unfold cdivNat
    rw [Nat.div_lt_iff_lt_mul hy, add_mul, one_mul]
    have hgen : ∀ z : ℕ, x ≤ z → x + y - 1 < z + y := by
      intro z hz
      omega
    exact hgen (x * y) hxy
  unfold cdivNat at h1
  omega

theorem cdivNat_lt_pow (x y N : ℕ) (hx : x < 2 ^ N) : cdivNat x y < 2 ^ N := by
  rcases Nat.eq_zero_or_pos y with hy | hy
  · subst hy
    unfold cdivNat
    simp
  · exact lt_of_le_of_lt (cdivNat_le_self x y hy) hx

theorem div_ge_cdivNat (x y : ℕ) : x / y ≤ cdivNat x y := by
  unfold cdivNat
  rcases Nat.eq_zero_or_pos y with hy | hy
  · subst hy
    simp
  · exact Nat.div_le_div_right (by omega)

theorem left_le_lor (a : ℕ) : ∀ b : ℕ, a ≤ a ||| b := by
  induction a using Nat.binaryRec with
  | z => intro b; exact Nat.zero_le _
  | f c m ih =>
    intro b
    have hb := Nat.bit_decomp b
    rw [← hb, Nat.lor_bit, Nat.bit_val, Nat.bit_val]
    have ihb := ih (Nat.div2 b)
    cases c <;> cases Nat.bodd b <;> simp [Bool.toNat] <;> omega

theorem right_le_lor (a b : ℕ) : b ≤ a ||| b := by
  rw [Nat.lor_comm]
  exact left_le_lor b a

/-! ## The width clamp

Every transfer function below produces its result through `clampRange`:
a candidate interval per interpretation, each component widened to the
full (top) range of the result bit-width when the candidate does not
fit that width — the lattice's safe element. -/

/-- Clamp candidate intervals to the width: each component keeps its
candidate when it fits the width and widens to the full range of the
width otherwise. -/
def clampRange (N : ℕ) (ulo uhi : ℕ) (slo shi : ℤ) : IntRange :=
  { umin := if uhi ≤ 2 ^ N - 1 then ulo else 0
    umax := if uhi ≤ 2 ^ N - 1 then uhi else 2 ^ N - 1
    smin := if -(2 : ℤ) ^ (N - 1) ≤ slo ∧ shi ≤ (2 : ℤ) ^ (N - 1) - 1 then slo
            else -(2 : ℤ) ^ (N - 1)
    smax := if -(2 : ℤ) ^ (N - 1) ≤ slo ∧ shi ≤ (2 : ℤ) ^ (N - 1) - 1 then shi
            else (2 : ℤ) ^ (N - 1) - 1 }

/-- The full range of the width. -/
def topRange (N : ℕ) : IntRange :=
  { umin := 0
    umax := 2 ^ N - 1
    smin := -(2 : ℤ) ^ (N - 1)
    smax := (2 : ℤ) ^ (N - 1) - 1 }

theorem clampRange_contains (N : ℕ) (hN : 0 < N) (ulo uhi : ℕ) (slo shi : ℤ)
    (v : ℕ) (hv : v < 2 ^ N)
    (hu : uhi ≤ 2 ^ N - 1 → ulo ≤ v ∧ v ≤ uhi)
    (hs : (-(2 : ℤ) ^ (N - 1) ≤ slo ∧ shi ≤ (2 : ℤ) ^ (N - 1) - 1) →
      slo ≤ toSigned N v ∧ toSigned N v ≤ shi) :
    IntRange.contains N (clampRange N ulo uhi slo shi) v := by
  refine ⟨?_, ?_, ?_, ?_⟩
  · show (if uhi ≤ 2 ^ N - 1 then ulo else 0) ≤ v
    split_ifs with h
    · exact (hu h).1
    · exact Nat.zero_le _
  · show v ≤ (if uhi ≤ 2 ^ N - 1 then uhi else 2 ^ N - 1)
    split_ifs with h
    · exact (hu h).2
    · exact Nat.le_pred_of_lt hv
  · show (if -(2 : ℤ) ^ (N - 1) ≤ slo ∧ shi ≤ (2 : ℤ) ^ (N - 1) - 1 then slo
        else -(2 : ℤ) ^ (N - 1)) ≤ toSigned N v
    split_ifs with h
    · exact (hs h).1
    · exact (toSigned_bounds N v hN hv).1
  · show toSigned N v ≤ (if -(2 : ℤ) ^ (N - 1) ≤ slo ∧ shi ≤ (2 : ℤ) ^ (N - 1) - 1
        then shi else (2 : ℤ) ^ (N - 1) - 1)
    split_ifs with h
    · exact (hs h).2
    · exact (toSigned_bounds N v hN hv).2

theorem topRange_contains (N : ℕ) (hN : 0 < N) (v : ℕ) (hv : v < 2 ^ N) :
    IntRange.contains N (topRange N) v :=
  ⟨Nat.zero_le _, Nat.le_pred_of_lt hv,
   (toSigned_bounds N v hN hv).1, (toSigned_bounds N v hN hv).2⟩

/-- Containment for a result whose signed reading is represented by an
integer `q` bounded by the signed candidates: unsigned side top, signed
side the clamp of `[slo, shi]`. -/
theorem contains_rep (N : ℕ) (hN : 0 < N) (slo shi q : ℤ)
    (h3 : slo ≤ q) (h4 : q ≤ shi) :
    IntRange.contains N (clampRange N 0 (2 ^ N - 1) slo shi) (toUnsigned N q) := by
  apply clampRange_contains N hN _ _ _ _ _ (toUnsigned_lt N q)
  · intro _
    exact ⟨Nat.zero_le _, Nat.le_pred_of_lt (toUnsigned_lt N q)⟩
  · intro hfit
    have hts : toSigned N (toUnsigned N q) = q :=
      toSigned_toUnsigned N hN q (le_trans hfit.1 h3) (le_trans h4 hfit.2)
    rw [hts]
    exact ⟨h3, h4⟩

/-- Containment for a result with unsigned candidates and a top signed
side. -/
theorem contains_unsigned (N : ℕ) (hN : 0 < N) (ulo uhi v : ℕ) (hv : v < 2 ^ N)
    (h1 : ulo ≤ v) (h2 : v ≤ uhi) :
    IntRange.contains N
      (clampRange N ulo uhi (-(2 : ℤ) ^ (N - 1)) ((2 : ℤ) ^ (N - 1) - 1)) v := by
  apply clampRange_contains N hN _ _ _ _ _ hv
  · intro _
    exact ⟨h1, h2⟩
  · intro _
    exact ⟨(toSigned_bounds N v hN hv).1, (toSigned_bounds N v hN hv).2⟩

/-- The magnitude bound of a range's signed interval. -/
def absBound (r : IntRange) : ℤ := max |r.smin| |r.smax|

theorem abs_le_absBound (r : IntRange) (s : ℤ) (h1 : r.smin ≤ s) (h2 : s ≤ r.smax) :
    |s| ≤ absBound r := by
  unfold absBound
  rw [abs_le]
  constructor
  · have h3 : -|r.smin| ≤ r.smin := neg_abs_le _
    have h4 : |r.smin| ≤ max |r.smin| |r.smax| := le_max_left _ _
    linarith
  · have h3 : r.smax ≤ |r.smax| := le_abs_self _
    have h4 : |r.smax| ≤ max |r.smin| |r.smax| := le_max_right _ _
    linarith

/-! ## The integer binary transfer functions (claim C3)

Modelled from the spec: the `InferIntRangeInterface` bodies declared on
`Arith_IntBinaryOp` and its descendants are not under src/.  addi, subi
and muli use the exact interval arithmetic with widening; the division
and remainder family uses standard interval arithmetic on the unsigned
side (rhs ranges containing zero produce top) and the sound magnitude
clamp `|quotient| ≤ |lhs|` on the signed side; the bitwise family uses
known-bits style bounds; the shifts multiply/divide by the power of two
when the shift amount is a known constant; max/min take interval
max/min.  Every component is widened to the full width range when its
candidate does not fit (`clampRange`). -/

/-- Width-`N` semantics of the twenty integer binary operations on bit
patterns (unsigned readings for the unsigned ops, two's-complement
readings re-encoded through `toUnsigned` for the signed ops). -/
def intBinSem (k : IntBinKind) (N x y : ℕ) : ℕ :=
  match k with
  | .addi => rangeOpSem RangeOpKind.addi N x y
  | .subi => rangeOpSem RangeOpKind.subi N x y
  | .muli => rangeOpSem RangeOpKind.muli N x y
  | .divui => x / y
  | .divsi => toUnsigned N (Int.tdiv (toSigned N x) (toSigned N y))
  | .ceildivui => cdivNat x y
  | .ceildivsi => toUnsigned N (cdivInt (toSigned N x) (toSigned N y))
  | .floordivsi => toUnsigned N (fdivInt (toSigned N x) (toSigned N y))
  | .remui => x % y
  | .remsi => toUnsigned N (Int.tmod (toSigned N x) (toSigned N y))
  | .andi => x &&& y
  | .ori => x ||| y
  | .xori => x ^^^ y
  | .shli => (x <<< y) % 2 ^ N
  | .shrui => x >>> y
  | .shrsi => toUnsigned N (toSigned N x / (2 : ℤ) ^ y)
  | .maxsi => toUnsigned N (max (toSigned N x) (toSigned N y))
  | .maxui => max x y
  | .minsi => toUnsigned N (min (toSigned N x) (toSigned N y))
  | .minui => min x y

/-- Modelled from the spec: the transfer function of each integer
binary operation. -/
def inferIntBin (k : IntBinKind) (N : ℕ) (ra rb : IntRange) : IntRange :=
  match k with
  | .addi => infer_int_range RangeOpKind.addi N ra rb
  | .subi => infer_int_range RangeOpKind.subi N ra rb
  | .muli => infer_int_range RangeOpKind.muli N ra rb
  | .divui =>
    if 1 ≤ rb.umin then
      clampRange N (ra.umin / rb.umax) (ra.umax / rb.umin)
        (-(2 : ℤ) ^ (N - 1)) ((2 : ℤ) ^ (N - 1) - 1)
    else topRange N
  | .divsi => clampRange N 0 (2 ^ N - 1) (-(absBound ra)) (absBound ra)
  | .ceildivui =>
    if 1 ≤ rb.umin then
      clampRange N (ra.umin / rb.umax) ra.umax
        (-(2 : ℤ) ^ (N - 1)) ((2 : ℤ) ^ (N - 1) - 1)
    else topRange N
  | .ceildivsi => clampRange N 0 (2 ^ N - 1) (-(absBound ra)) (absBound ra)
  | .floordivsi => clampRange N 0 (2 ^ N - 1) (-(absBound ra)) (absBound ra)
  | .remui =>
    if 1 ≤ rb.umin then
      clampRange N 0 (rb.umax - 1) (-(2 : ℤ) ^ (N - 1)) ((2 : ℤ) ^ (N - 1) - 1)
    else topRange N
  | .remsi => clampRange N 0 (2 ^ N - 1) (-(absBound ra)) (absBound ra)
  | .andi =>
    clampRange N 0 (min ra.umax rb.umax) (-(2 : ℤ) ^ (N - 1)) ((2 : ℤ) ^ (N - 1) - 1)
  | .ori =>
    clampRange N (max ra.umin rb.umin) (2 ^ N - 1)
      (-(2 : ℤ) ^ (N - 1)) ((2 : ℤ) ^ (N - 1) - 1)
  | .xori => topRange N
  | .shli =>
    if rb.umax = rb.umin ∧ ra.umax * 2 ^ rb.umin ≤ 2 ^ N - 1 then
      clampRange N (ra.umin * 2 ^ rb.umin) (ra.umax * 2 ^ rb.umin)
        (-(2 : ℤ) ^ (N - 1)) ((2 : ℤ) ^ (N - 1) - 1)
    else topRange N
  | .shrui =>
    if rb.umax = rb.umin then
      clampRange N (ra.umin / 2 ^ rb.umin) (ra.umax / 2 ^ rb.umin)
        (-(2 : ℤ) ^ (N - 1)) ((2 : ℤ) ^ (N - 1) - 1)
    else
      clampRange N 0 ra.umax (-(2 : ℤ) ^ (N - 1)) ((2 : ℤ) ^ (N - 1) - 1)
  | .shrsi =>
    if rb.umax = rb.umin then
      clampRange N 0 (2 ^ N - 1)
        (ra.smin / (2 : ℤ) ^ rb.umin) (ra.smax / (2 : ℤ) ^ rb.umin)
    else topRange N
  | .maxsi =>
    clampRange N 0 (2 ^ N - 1) (max ra.smin rb.smin) (max ra.smax rb.smax)
  | .maxui =>
    clampRange N (max ra.umin rb.umin) (max ra.umax rb.umax)
      (-(2 : ℤ) ^ (N - 1)) ((2 : ℤ) ^ (N - 1) - 1)
  | .minsi =>
    clampRange N 0 (2 ^ N - 1) (min ra.smin rb.smin) (min ra.smax rb.smax)
  | .minui =>
    clampRange N (min ra.umin rb.umin) (min ra.umax rb.umax)
      (-(2 : ℤ) ^ (N - 1)) ((2 : ℤ) ^ (N - 1) - 1)

theorem intBin_sound (k : IntBinKind) (N : ℕ) (ra rb : IntRange) (x y : ℕ)
    (hN : 0 < N) (hx : x < 2 ^ N) (hy : y < 2 ^ N)
    (hxr : IntRange.contains N ra x) (hyr : IntRange.contains N rb y) :
    IntRange.contains N (inferIntBin k N ra rb) (intBinSem k N x y) := by
  obtain ⟨hxu1, hxu2, hxs1, hxs2⟩ := hxr
  obtain ⟨hyu1, hyu2, hys1, hys2⟩ := hyr
  cases k with
  | addi =>
    exact (rangeOpExact_sound RangeOpKind.addi N ra rb x y hN
      ⟨hxu1, hxu2, hxs1, hxs2⟩ ⟨hyu1, hyu2, hys1, hys2⟩).1
  | subi =>
    exact (rangeOpExact_sound RangeOpKind.subi N ra rb x y hN
      ⟨hxu1, hxu2, hxs1, hxs2⟩ ⟨hyu1, hyu2, hys1, hys2⟩).1
  | muli =>
    exact (rangeOpExact_sound RangeOpKind.muli N ra rb x y hN
      ⟨hxu1, hxu2, hxs1, hxs2⟩ ⟨hyu1, hyu2, hys1, hys2⟩).1
  | divui =>
    simp only [inferIntBin, intBinSem]
    by_cases hc : 1 ≤ rb.umin
    · rw [if_pos hc]
      have hy0 : 0 < y := lt_of_lt_of_le hc hyu1
      apply contains_unsigned N hN _ _ _ (lt_of_le_of_lt (Nat.div_le_self x y) hx)
      · exact le_trans (Nat.div_le_div_right hxu1) (Nat.div_le_div_left hyu2 hy0)
      · exact le_trans (Nat.div_le_div_right hxu2) (Nat.div_le_div_left hyu1 hc)
    · rw [if_neg hc]
      exact topRange_contains N hN _ (lt_of_le_of_lt (Nat.div_le_self x y) hx)
  | divsi =>
    simp only [inferIntBin, intBinSem]
    have hq := tdiv_bounds (toSigned N x) (toSigned N y)
    have habs := abs_le_absBound ra (toSigned N x) hxs1 hxs2
    exact contains_rep N hN _ _ _ (by linarith [hq.1]) (by linarith [hq.2])
  | ceildivui =>
    simp only [inferIntBin, intBinSem]
    by_cases hc : 1 ≤ rb.umin
    · rw [if_pos hc]
      have hy0 : 0 < y := lt_of_lt_of_le hc hyu1
      apply contains_unsigned N hN _ _ _ (cdivNat_lt_pow x y N hx)
      · exact le_trans (le_trans (Nat.div_le_div_right hxu1)
          (Nat.div_le_div_left hyu2 hy0)) (div_ge_cdivNat x y)
      · exact le_trans (cdivNat_le_self x y hy0) hxu2
    · rw [if_neg hc]
      exact topRange_contains N hN _ (cdivNat_lt_pow x y N hx)
  | ceildivsi =>
    simp only [inferIntBin, intBinSem]
    have hq := cdivInt_bounds (toSigned N x) (toSigned N y)
    have habs := abs_le_absBound ra (toSigned N x) hxs1 hxs2
    exact contains_rep N hN _ _ _ (by linarith [hq.1]) (by linarith [hq.2])
  | floordivsi =>
    simp only [inferIntBin, intBinSem]
    have hq := fdivInt_bounds (toSigned N x) (toSigned N y)
    have habs := abs_le_absBound ra (toSigned N x) hxs1 hxs2
    exact contains_rep N hN _ _ _ (by linarith [hq.1]) (by linarith [hq.2])
  | remui =>
    simp only [inferIntBin, intBinSem]
    by_cases hc : 1 ≤ rb.umin
    · rw [if_pos hc]
      have hy0 : 0 < y := lt_of_lt_of_le hc hyu1
      apply contains_unsigned N hN _ _ _ (lt_of_le_of_lt (Nat.mod_le x y) hx)
      · exact Nat.zero_le _
      · exact Nat.le_pred_of_lt (lt_of_lt_of_le (Nat.mod_lt x hy0) hyu2)
    · rw [if_neg hc]
      exact topRange_contains N hN _ (lt_of_le_of_lt (Nat.mod_le x y) hx)
  | remsi =>
    simp only [inferIntBin, intBinSem]
    have hq := tmod_bounds (toSigned N x) (toSigned N y)
    have habs := abs_le_absBound ra (toSigned N x) hxs1 hxs2
    exact contains_rep N hN _ _ _ (by linarith [hq.1]) (by linarith [hq.2])
  | andi =>
    simp only [inferIntBin, intBinSem]
    apply contains_unsigned N hN _ _ _ (lt_of_le_of_lt Nat.and_le_left hx)
    · exact Nat.zero_le _
    · exact le_min (le_trans Nat.and_le_left hxu2) (le_trans Nat.and_le_right hyu2)
  | ori =>
    simp only [inferIntBin, intBinSem]
    apply contains_unsigned N hN _ _ _ (Nat.or_lt_two_pow hx hy)
    · exact max_le (le_trans hxu1 (left_le_lor x y)) (le_trans hyu1 (right_le_lor x y))
    · exact Nat.le_pred_of_lt (Nat.or_lt_two_pow hx hy)
  | xori =>
    simp only [inferIntBin, intBinSem]
    exact topRange_contains N hN _ (Nat.xor_lt_two_pow hx hy)
  | shli =>
    simp only [inferIntBin, intBinSem]
    by_cases hc : rb.umax = rb.umin ∧ ra.umax * 2 ^ rb.umin ≤ 2 ^ N - 1
    · rw [if_pos hc]
      obtain ⟨hsing, hfit⟩ := hc
      have hys : y = rb.umin := le_antisymm (hsing ▸ hyu2) hyu1
      subst hys
      have hxle : x * 2 ^ rb.umin ≤ ra.umax * 2 ^ rb.umin := Nat.mul_le_mul_right _ hxu2
      have hlt : x * 2 ^ rb.umin < 2 ^ N := by
        have h2N : (0 : ℕ) < 2 ^ N := by positivity
        omega
      rw [Nat.shiftLeft_eq, Nat.mod_eq_of_lt hlt]
      apply contains_unsigned N hN _ _ _ hlt
      · exact Nat.mul_le_mul_right _ hxu1
      · exact hxle
    · rw [if_neg hc]
      exact topRange_contains N hN _ (Nat.mod_lt _ (by positivity))
  | shrui =>
    simp only [inferIntBin, intBinSem]
    rw [Nat.shiftRight_eq_div_pow]
    have hv : x / 2 ^ y < 2 ^ N := lt_of_le_of_lt (Nat.div_le_self _ _) hx
    by_cases hsing : rb.umax = rb.umin
    · rw [if_pos hsing]
      have hys : y = rb.umin := le_antisymm (hsing ▸ hyu2) hyu1
      subst hys
      apply contains_unsigned N hN _ _ _ hv
      · exact Nat.div_le_div_right hxu1
      · exact Nat.div_le_div_right hxu2
    · rw [if_neg hsing]
      apply contains_unsigned N hN _ _ _ hv
      · exact Nat.zero_le _
      · exact le_trans (Nat.div_le_self _ _) hxu2
  | shrsi =>
    simp only [inferIntBin, intBinSem]
    by_cases hsing : rb.umax = rb.umin
    · rw [if_pos hsing]
      have hys : y = rb.umin := le_antisymm (hsing ▸ hyu2) hyu1
      subst hys
      have hpos : (0 : ℤ) < 2 ^ rb.umin := by positivity
      exact contains_rep N hN _ _ _ (Int.ediv_le_ediv hpos hxs1) (Int.ediv_le_ediv hpos hxs2)
    · rw [if_neg hsing]
      exact topRange_contains N hN _ (toUnsigned_lt N _)
  | maxsi =>
    simp only [inferIntBin, intBinSem]
    exact contains_rep N hN _ _ _ (max_le_max hxs1 hys1) (max_le_max hxs2 hys2)
  | maxui =>
    simp only [inferIntBin, intBinSem]
    apply contains_unsigned N hN _ _ _ (max_lt hx hy)
    · exact max_le_max hxu1 hyu1
    · exact max_le_max hxu2 hyu2
  | minsi =>
    simp only [inferIntBin, intBinSem]
    exact contains_rep N hN _ _ _ (min_le_min hxs1 hys1) (min_le_min hxs2 hys2)
  | minui =>
    simp only [inferIntBin, intBinSem]
    apply contains_unsigned N hN _ _ _ (lt_of_le_of_lt (min_le_left x y) hx)
    · exact min_le_min hxu1 hyu1
    · exact min_le_min hxu2 hyu2

/-! ## Transfer functions of the remaining range-inferring ops

constant, the integer-to-integer casts (extui, extsi, trunci), the
index casts, cmpi, and select, per §4.5 of the spec. -/

/-- Modelled from the spec: the constant transfer function — the
singleton range of the constant in both encodings. -/
def inferConstant (N c : ℕ) : IntRange :=
  { umin := c, umax := c, smin := toSigned N c, smax := toSigned N c }

/-- Modelled from the spec: the extui transfer function — the unsigned
range is carried over and the signed range is the (non-negative)
unsigned range, the zero-extended pattern reading non-negatively. -/
def inferExtui (M N : ℕ) (r : IntRange) : IntRange :=
  clampRange N r.umin r.umax (r.umin : ℤ) (r.umax : ℤ)

/-- Modelled from the spec: the extsi transfer function — the signed
range is sign-extended (carried over), the unsigned side widens. -/
def inferExtsi (M N : ℕ) (r : IntRange) : IntRange :=
  clampRange N 0 (2 ^ N - 1) r.smin r.smax

/-- Modelled from the spec: the trunci transfer function — each
component is preserved when the input range fits the result width, and
widens to top otherwise. -/
def inferTrunci (M N : ℕ) (r : IntRange) : IntRange :=
  clampRange N r.umin r.umax r.smin r.smax

/-- Width-`W` semantics of index_cast on a width-`M` pattern:
sign-extend when widening, truncate when narrowing (one formula covers
both). -/
def index_cast_sem (M W v : ℕ) : ℕ := toUnsigned W (toSigned M v)

/-- Width-`W` semantics of index_castui: zero-extend or truncate. -/
def index_castui_sem (M W v : ℕ) : ℕ := v % 2 ^ W

/-- Modelled from the spec: the index_cast transfer function at the
host-supplied Index width `W` — propagate the signed range. -/
def inferIndexCast (M W : ℕ) (r : IntRange) : IntRange :=
  clampRange W 0 (2 ^ W - 1) r.smin r.smax

/-- Modelled from the spec: the index_castui transfer function at the
host-supplied Index width `W` — propagate the unsigned range. -/
def inferIndexCastUI (M W : ℕ) (r : IntRange) : IntRange :=
  clampRange W r.umin r.umax (-(2 : ℤ) ^ (W - 1)) ((2 : ℤ) ^ (W - 1) - 1)

theorem extui_range_sound (M N v : ℕ) (r : IntRange) (hM : 0 < M) (hMN : M < N)
    (hv : v < 2 ^ M) (hr : IntRange.contains M r v) :
    IntRange.contains N (inferExtui M N r) (extui_fold M N v) := by
  obtain ⟨hu1, hu2, -, -⟩ := hr
  have hvN : v < 2 ^ N :=
    lt_of_lt_of_le hv (Nat.pow_le_pow_right (by norm_num) (le_of_lt hMN))
  have hts : toSigned N v = (v : ℤ) := by
    unfold toSigned
    rw [if_pos (lt_of_lt_of_le hv (Nat.pow_le_pow_right (by norm_num) (by omega)))]
  apply clampRange_contains N (by omega) _ _ _ _ _ hvN
  · intro _
    exact ⟨hu1, hu2⟩
  · intro _
    show (r.umin : ℤ) ≤ toSigned N v ∧ toSigned N v ≤ (r.umax : ℤ)
    rw [hts]
    exact ⟨by exact_mod_cast hu1, by exact_mod_cast hu2⟩

theorem extsi_range_sound (M N v : ℕ) (r : IntRange) (hM : 0 < M) (hMN : M < N)
    (hv : v < 2 ^ M) (hr : IntRange.contains M r v) :
    IntRange.contains N (inferExtsi M N r) (extsi_fold M N v) := by
  obtain ⟨-, -, hs1, hs2⟩ := hr
  exact contains_rep N (by omega) _ _ _ hs1 hs2

theorem trunci_range_sound (M N w : ℕ) (r : IntRange) (hN : 0 < N) (hNM : N < M)
    (hw : w < 2 ^ M) (hr : IntRange.contains M r w) :
    IntRange.contains N (inferTrunci M N r) (trunci_fold M N w) := by
  obtain ⟨hu1, hu2, hs1, hs2⟩ := hr
  have hvlt : w % 2 ^ N < 2 ^ N := Nat.mod_lt _ (by positivity)
  apply clampRange_contains N hN _ _ _ _ _ hvlt
  · intro hfit
    have hweq : w % 2 ^ N = w := Nat.mod_eq_of_lt (by omega)
    rw [hweq]
    exact ⟨hu1, hu2⟩
  · intro hfit
    have hcong : (((w % 2 ^ N : ℕ) : ℤ)) ≡ toSigned M w [ZMOD (2 : ℤ) ^ N] := by
      have h1 : (((w % 2 ^ N : ℕ) : ℤ)) ≡ ((w : ℕ) : ℤ) [ZMOD (2 : ℤ) ^ N] := by
        rw [Int.natCast_mod, show ((2 ^ N : ℕ) : ℤ) = (2 : ℤ) ^ N by push_cast; ring]
        unfold Int.ModEq
        exact Int.emod_emod_of_dvd _ dvd_rfl
      have h2 : toSigned M w ≡ ((w : ℕ) : ℤ) [ZMOD (2 : ℤ) ^ N] :=
        (toSigned_modEq M w).of_dvd (pow_dvd_pow 2 (le_of_lt hNM))
      exact h1.trans h2.symm
    have hts : toSigned N (w % 2 ^ N) = toSigned M w :=
      toSigned_eq_of_bounds N _ hN hvlt _ (le_trans hfit.1 hs1)
        (le_trans hs2 hfit.2) hcong
    rw [hts]
    exact ⟨hs1, hs2⟩

theorem index_cast_range_sound (M W v : ℕ) (r : IntRange) (hW : 0 < W)
    (hr : IntRange.contains M r v) :
    IntRange.contains W (inferIndexCast M W r) (index_cast_sem M W v) := by
  obtain ⟨-, -, hs1, hs2⟩ := hr
  exact contains_rep W hW _ _ _ hs1 hs2

theorem index_castui_range_sound (M W v : ℕ) (r : IntRange) (hW : 0 < W)
    (hr : IntRange.contains M r v) :
    IntRange.contains W (inferIndexCastUI M W r) (index_castui_sem M W v) := by
  obtain ⟨hu1, hu2, -, -⟩ := hr
  have hvlt : v % 2 ^ W < 2 ^ W := Nat.mod_lt _ (by positivity)
  apply clampRange_contains W hW _ _ _ _ _ hvlt
  · intro hfit
    have hveq : v % 2 ^ W = v := Nat.mod_eq_of_lt (by omega)
    rw [hveq]
    exact ⟨hu1, hu2⟩
  · intro _
    exact ⟨(toSigned_bounds W _ hW hvlt).1, (toSigned_bounds W _ hW hvlt).2⟩

/-! ## The cmpi transfer function -/

/-- The truth of a cmpi predicate on two width-`N` patterns, per the
source's predicate list. -/
def cmpiHolds (p : CmpIPredicate) (N x y : ℕ) : Prop :=
  match p with
  | .eq => x = y
  | .ne => ¬ x = y
  | .slt => toSigned N x < toSigned N y
  | .sle => toSigned N x ≤ toSigned N y
  | .sgt => toSigned N y < toSigned N x
  | .sge => toSigned N y ≤ toSigned N x
  | .ult => x < y
  | .ule => x ≤ y
  | .ugt => y < x
  | .uge => y ≤ x

instance (p : CmpIPredicate) (N x y : ℕ) : Decidable (cmpiHolds p N x y) := by
  unfold cmpiHolds
  cases p <;> exact inferInstance

/-- Width-1 result pattern of cmpi: 1 when the comparison is true. -/
def cmpiSem (p : CmpIPredicate) (N x y : ℕ) : ℕ :=
  if cmpiHolds p N x y then 1 else 0

/-- The negation of a cmpi predicate. -/
def negPred : CmpIPredicate → CmpIPredicate
  | .eq => .ne
  | .ne => .eq
  | .slt => .sge
  | .sge => .slt
  | .sle => .sgt
  | .sgt => .sle
  | .ult => .uge
  | .uge => .ult
  | .ule => .ugt
  | .ugt => .ule

theorem cmpiHolds_negPred (p : CmpIPredicate) (N x y : ℕ) :
    cmpiHolds (negPred p) N x y ↔ ¬ cmpiHolds p N x y := by
  cases p <;> simp [cmpiHolds, negPred]

/-- Whether the comparison is provably true from the operand ranges. -/
def provablyTrue (p : CmpIPredicate) (ra rb : IntRange) : Bool :=
  match p with
  | .eq => decide (ra.umin = ra.umax ∧ rb.umin = rb.umax ∧ ra.umin = rb.umin)
  | .ne => decide (ra.umax < rb.umin ∨ rb.umax < ra.umin)
  | .slt => decide (ra.smax < rb.smin)
  | .sle => decide (ra.smax ≤ rb.smin)
  | .sgt => decide (rb.smax < ra.smin)
  | .sge => decide (rb.smax ≤ ra.smin)
  | .ult => decide (ra.umax < rb.umin)
  | .ule => decide (ra.umax ≤ rb.umin)
  | .ugt => decide (rb.umax < ra.umin)
  | .uge => decide (rb.umax ≤ ra.umin)

theorem provablyTrue_sound (p : CmpIPredicate) (N x y : ℕ) (ra rb : IntRange)
    (hxr : IntRange.contains N ra x) (hyr : IntRange.contains N rb y)
    (h : provablyTrue p ra rb = true) : cmpiHolds p N x y := by
  obtain ⟨hxu1, hxu2, hxs1, hxs2⟩ := hxr
  obtain ⟨hyu1, hyu2, hys1, hys2⟩ := hyr
  cases p with
  | eq =>
    rw [show provablyTrue CmpIPredicate.eq ra rb =
      decide (ra.umin = ra.umax ∧ rb.umin = rb.umax ∧ ra.umin = rb.umin) from rfl,
      decide_eq_true_iff] at h
    show x = y
    omega
  | ne =>
    rw [show provablyTrue CmpIPredicate.ne ra rb =
      decide (ra.umax < rb.umin ∨ rb.umax < ra.umin) from rfl,
      decide_eq_true_iff] at h
    show ¬ x = y
    omega
  | slt =>
    rw [show provablyTrue CmpIPredicate.slt ra rb = decide (ra.smax < rb.smin) from rfl,
      decide_eq_true_iff] at h
    show toSigned N x < toSigned N y
    linarith
  | sle =>
    rw [show provablyTrue CmpIPredicate.sle ra rb = decide (ra.smax ≤ rb.smin) from rfl,
      decide_eq_true_iff] at h
    show toSigned N x ≤ toSigned N y
    linarith
  | sgt =>
    rw [show provablyTrue CmpIPredicate.sgt ra rb = decide (rb.smax < ra.smin) from rfl,
      decide_eq_true_iff] at h
    show toSigned N y < toSigned N x
    linarith
  | sge =>
    rw [show provablyTrue CmpIPredicate.sge ra rb = decide (rb.smax ≤ ra.smin) from rfl,
      decide_eq_true_iff] at h
    show toSigned N y ≤ toSigned N x
    linarith
  | ult =>
    rw [show provablyTrue CmpIPredicate.ult ra rb = decide (ra.umax < rb.umin) from rfl,
      decide_eq_true_iff] at h
    show x < y
    omega
  | ule =>
    rw [show provablyTrue CmpIPredicate.ule ra rb = decide (ra.umax ≤ rb.umin) from rfl,
      decide_eq_true_iff] at h
    show x ≤ y
    omega
  | ugt =>
    rw [show provablyTrue CmpIPredicate.ugt ra rb = decide (rb.umax < ra.umin) from rfl,
      decide_eq_true_iff] at h
    show y < x
    omega
  | uge =>
    rw [show provablyTrue CmpIPredicate.uge ra rb = decide (rb.umax ≤ ra.umin) from rfl,
      decide_eq_true_iff] at h
    show y ≤ x
    omega

/-- The Bool (i1) range with the given unsigned endpoints, read in
two's complement at width 1 for the signed side. -/
def mkBool (lo hi : ℕ) : IntRange :=
  { umin := lo, umax := hi, smin := toSigned 1 hi, smax := toSigned 1 lo }

/-- Modelled from the spec: the cmpi transfer function — `{0,1}`,
narrowed to a singleton when the comparison is provably true or
provably false from the operand ranges. -/
def inferCmpI (p : CmpIPredicate) (ra rb : IntRange) : IntRange :=
  if provablyTrue p ra rb then mkBool 1 1
  else if provablyTrue (negPred p) ra rb then mkBool 0 0
  else mkBool 0 1

theorem cmpi_sound (p : CmpIPredicate) (N x y : ℕ) (ra rb : IntRange)
    (hxr : IntRange.contains N ra x) (hyr : IntRange.contains N rb y) :
    IntRange.contains 1 (inferCmpI p ra rb) (cmpiSem p N x y) := by
  unfold inferCmpI
  by_cases h1 : provablyTrue p ra rb = true
  · rw [if_pos h1]
    have hh := provablyTrue_sound p N x y ra rb hxr hyr h1
    unfold cmpiSem
    rw [if_pos hh]
    decide
  · rw [if_neg h1]
    by_cases h2 : provablyTrue (negPred p) ra rb = true
    · rw [if_pos h2]
      have hh := provablyTrue_sound (negPred p) N x y ra rb hxr hyr h2
      have hnot : ¬ cmpiHolds p N x y := (cmpiHolds_negPred p N x y).mp hh
      unfold cmpiSem
      rw [if_neg hnot]
      decide
    · rw [if_neg h2]
      unfold cmpiSem
      by_cases hh : cmpiHolds p N x y
      · rw [if_pos hh]
        decide
      · rw [if_neg hh]
        decide

/-! ## The select transfer function -/

/-- Scalar semantics of select on patterns: the i1 condition pattern
chooses the second operand when it is 1, the third otherwise. -/
def selectSem (c t f : ℕ) : ℕ := if c = 1 then t else f

/-- Modelled from the spec: the select transfer function — the union of
the two branches' ranges, intersected with (clamped to) the result's
declared width. -/
def inferSelect (N : ℕ) (rt rf : IntRange) : IntRange :=
  clampRange N (min rt.umin rf.umin) (max rt.umax rf.umax)
    (min rt.smin rf.smin) (max rt.smax rf.smax)

theorem select_sound (N c t f : ℕ) (rt rf : IntRange) (hN : 0 < N)
    (ht : t < 2 ^ N) (hf : f < 2 ^ N)
    (htr : IntRange.contains N rt t) (hfr : IntRange.contains N rf f) :
    IntRange.contains N (inferSelect N rt rf) (selectSem c t f) := by
  obtain ⟨htu1, htu2, hts1, hts2⟩ := htr
  obtain ⟨hfu1, hfu2, hfs1, hfs2⟩ := hfr
  unfold selectSem inferSelect
  by_cases hc : c = 1
  · rw [if_pos hc]
    apply clampRange_contains N hN _ _ _ _ _ ht
    · intro _
      exact ⟨le_trans (min_le_left _ _) htu1, le_trans htu2 (le_max_left _ _)⟩
    · intro _
      exact ⟨le_trans (min_le_left _ _) hts1, le_trans hts2 (le_max_left _ _)⟩
  · rw [if_neg hc]
    apply clampRange_contains N hN _ _ _ _ _ hf
    · intro _
      exact ⟨le_trans (min_le_right _ _) hfu1, le_trans hfu2 (le_max_right _ _)⟩
    · intro _
      exact ⟨le_trans (min_le_right _ _) hfs1, le_trans hfs2 (le_max_right _ _)⟩

/-- Claim C3: every operation of the dialect that implements integer
range inference has a sound transfer function: for all operand ranges
and all concrete width-`N` operand patterns contained in them, the
op's concrete result is contained in the inferred result range — for
the twenty integer binary ops, constant, the integer casts extui,
extsi and trunci, the index casts at the host's Index width, cmpi
(at its i1 result width), and select; and in particular for addi, subi
and muli the transfer function (the exact interval arithmetic of
`infer_int_range`) widens a component to the full range of the result
bit-width whenever the computed interval exceeds that bit-width in the
corresponding interpretation. -/
theorem range_inference_sound :
    (∀ (k : IntBinKind) (N : ℕ) (ra rb : IntRange) (x y : ℕ),
      0 < N → x < 2 ^ N → y < 2 ^ N →
      IntRange.contains N ra x → IntRange.contains N rb y →
      IntRange.contains N (inferIntBin k N ra rb) (intBinSem k N x y)) ∧
    (∀ (N c : ℕ), IntRange.contains N (inferConstant N c) c) ∧
    (∀ (M N v : ℕ) (r : IntRange), 0 < M → M < N → v < 2 ^ M →
      IntRange.contains M r v →
      IntRange.contains N (inferExtui M N r) (extui_fold M N v)) ∧
    (∀ (M N v : ℕ) (r : IntRange), 0 < M → M < N → v < 2 ^ M →
      IntRange.contains M r v →
      IntRange.contains N (inferExtsi M N r) (extsi_fold M N v)) ∧
    (∀ (M N w : ℕ) (r : IntRange), 0 < N → N < M → w < 2 ^ M →
      IntRange.contains M r w →
      IntRange.contains N (inferTrunci M N r) (trunci_fold M N w)) ∧
    (∀ (M W v : ℕ) (r : IntRange), 0 < W → IntRange.contains M r v →
      IntRange.contains W (inferIndexCast M W r) (index_cast_sem M W v)) ∧
    (∀ (M W v : ℕ) (r : IntRange), 0 < W → IntRange.contains M r v →
      IntRange.contains W (inferIndexCastUI M W r) (index_castui_sem M W v)) ∧
    (∀ (p : CmpIPredicate) (N x y : ℕ) (ra rb : IntRange),
      IntRange.contains N ra x → IntRange.contains N rb y →
      IntRange.contains 1 (inferCmpI p ra rb) (cmpiSem p N x y)) ∧
    (∀ (N c t f : ℕ) (rt rf : IntRange), 0 < N → t < 2 ^ N → f < 2 ^ N →
      IntRange.contains N rt t → IntRange.contains N rf f →
      IntRange.contains N (inferSelect N rt rf) (selectSem c t f)) ∧
    (∀ (N : ℕ) (ra rb : IntRange),
      inferIntBin IntBinKind.addi N ra rb = infer_int_range RangeOpKind.addi N ra rb ∧
      inferIntBin IntBinKind.subi N ra rb = infer_int_range RangeOpKind.subi N ra rb ∧
      inferIntBin IntBinKind.muli N ra rb = infer_int_range RangeOpKind.muli N ra rb) ∧
    (∀ (k : RangeOpKind) (N : ℕ) (ra rb : IntRange),
      (¬ uFits k N ra rb → (infer_int_range k N ra rb).umin = 0 ∧
        (infer_int_range k N ra rb).umax = 2 ^ N - 1) ∧
      (¬ sFits k N ra rb → (infer_int_range k N ra rb).smin = -(2 : ℤ) ^ (N - 1) ∧
        (infer_int_range k N ra rb).smax = (2 : ℤ) ^ (N - 1) - 1)) := by
  refine ⟨?_, ?_, ?_, ?_, ?_, ?_, ?_, ?_, ?_, ?_, ?_⟩
  · intro k N ra rb x y hN hx hy hxr hyr
    exact intBin_sound k N ra rb x y hN hx hy hxr hyr
  · intro N c
    exact ⟨le_refl _, le_refl _, le_refl _, le_refl _⟩
  · intro M N v r hM hMN hv hr
    exact extui_range_sound M N v r hM hMN hv hr
  · intro M N v r hM hMN hv hr
    exact extsi_range_sound M N v r hM hMN hv hr
  · intro M N w r hN hNM hw hr
    exact trunci_range_sound M N w r hN hNM hw hr
  · intro M W v r hW hr
    exact index_cast_range_sound M W v r hW hr
  · intro M W v r hW hr
    exact index_castui_range_sound M W v r hW hr
  · intro p N x y ra rb hxr hyr
    exact cmpi_sound p N x y ra rb hxr hyr
  · intro N c t f rt rf hN ht hf htr hfr
    exact select_sound N c t f rt rf hN ht hf htr hfr
  · intro N ra rb
    exact ⟨rfl, rfl, rfl⟩
  · intro k N ra rb
    constructor
    · intro h
      constructor
      · show (if uFits k N ra rb then (uRawLo k ra rb).toNat else 0) = 0
        rw [if_neg h]
      · show (if uFits k N ra rb then (uRawHi k ra rb).toNat else 2 ^ N - 1) = 2 ^ N - 1
        rw [if_neg h]
    · intro h
      constructor
      · show (if sFits k N ra rb then sRawLo k ra rb else -(2 : ℤ) ^ (N - 1)) =
            -(2 : ℤ) ^ (N - 1)
        rw [if_neg h]
      · show (if sFits k N ra rb then sRawHi k ra rb else (2 : ℤ) ^ (N - 1) - 1) =
            (2 : ℤ) ^ (N - 1) - 1
        rw [if_neg h]

/-- Witness for C3 at divsi, width 8: patterns 200 and 3 (signed
readings −56 and 3) inside the ranges `[-66,-46]` and `[2,5]` signed;
the quotient pattern (−56 tdiv 3 = −18, pattern 238) lies in the
inferred range. -/
theorem range_inference_sound_witness :
    IntRange.contains 8
      (inferIntBin IntBinKind.divsi 8
        (IntRange.mk 190 210 (-66) (-46)) (IntRange.mk 2 5 2 5))
      (intBinSem IntBinKind.divsi 8 200 3) :=
  range_inference_sound.1 IntBinKind.divsi 8
    (IntRange.mk 190 210 (-66) (-46)) (IntRange.mk 2 5 2 5) 200 3
    (by decide) (by decide) (by decide) (by decide) (by decide)

end ArithDialect
